import Mathlib

/-!
Verification of the BibleStudyAI retrieval core against its specification.

The development shallowly embeds the Python sources:
  * backend/agents/tools.py            (SearchTools: vector, graph and hybrid search, fusion score)
  * backend/database/optimized_milvus.py (OptimizedMilvusManager.hybrid_search)
  * backend/data_ingestion/chunker.py  (AdvancedBiblicalChunker)
  * backend/data_ingestion/optimized_embedder.py (OptimizedEmbedder)
  * backend/data_ingestion/optimized_pipeline.py (ordinal assignment / embedding stage)

Python floats are modelled as exact rationals, remote services as oracle
functions, and exception-swallowing code as total functions returning the
value produced on the handled path.
-/

namespace BibleStudyAI

/-! ## Fusion scoring (SearchTools._calculate_fusion_score, tools.py lines 348-387)

A processed vector-search result carries the fields of the dict built by
SearchTools.vector_search that later code reads: id, raw distance, the
normalized similarity score, the text (as its list of words, the view that
str.split produces) and the has_keywords relevance indicator. -/

structure ProcessedHit where
  id : String
  distance : ℚ
  similarity_score : ℚ
  text : List String
  has_keywords : Bool
deriving Repr, DecidableEq

/-- One graph traversal record as built by SearchTools.graph_search: only the
relevance score and the relationship-type list are read by the fusion score. -/
structure GraphRecord where
  relevance_score : ℚ
  relationship_types : List String
deriving Repr, DecidableEq

/-- Python's two-argument min on floats (returns the first argument on ties),
written with < so that it evaluates by kernel reduction. -/
def pymin (a b : ℚ) : ℚ := if b < a then b else a

/-- str.lower(), modelled characterwise (String.toLower is definitionally a
position loop that does not reduce; the characterwise map is its value). -/
def strLower (s : String) : String := String.mk (s.data.map Char.toLower)

/-- SearchTools._calculate_fusion_score.  Mirrors the Python line by line:
early 0.0 when both result lists are empty; a vector component
(avg_similarity * 0.7 + keyword_bonus * 0.3) * 0.3 when vector results exist;
a graph component (avg_relevance * 0.8 + min(diversity / 10, 1.0) * 0.2) * 0.7
when graph results exist; and finally min(vector_score + graph_score, 1.0). -/
def calculateFusionScore (vector_results : List ProcessedHit)
    (graph_results : List GraphRecord) : ℚ :=
  if vector_results.isEmpty ∧ graph_results.isEmpty then 0
  else
    let vector_score : ℚ :=
      if vector_results.isEmpty then 0
      else
        let avg_similarity : ℚ :=
          ((vector_results.map (·.similarity_score)).sum) / (vector_results.length : ℚ)
        let keyword_bonus : ℚ :=
          (((vector_results.filter (·.has_keywords)).length : ℚ)) / (vector_results.length : ℚ)
        (avg_similarity * (7/10) + keyword_bonus * (3/10)) * (3/10)
    let graph_score : ℚ :=
      if graph_results.isEmpty then 0
      else
        let avg_relevance : ℚ :=
          ((graph_results.map (·.relevance_score)).sum) / (graph_results.length : ℚ)
        let relationship_diversity : ℕ :=
          ((graph_results.map (·.relationship_types)).flatten).dedup.length
        (avg_relevance * (8/10) + pymin ((relationship_diversity : ℚ) / 10) 1 * (2/10)) * (7/10)
    pymin (vector_score + graph_score) 1

/-- Vector component of the fusion score as the specification words it:
vector_component = (0.7 * avg_similarity + 0.3 * keyword_overlap_fraction) * 0.3,
and 0 when the vector result set is empty.  Spec-side definition, used to
compare the claimed formula with the code. -/
def specVectorComponent (vector_results : List ProcessedHit) : ℚ :=
  if vector_results.isEmpty then 0
  else
    ((7/10) * (((vector_results.map (·.similarity_score)).sum) / (vector_results.length : ℚ))
      + (3/10) * (((vector_results.filter (·.has_keywords)).length : ℚ) / (vector_results.length : ℚ)))
      * (3/10)

/-- Graph component of the fusion score as the specification words it:
graph_component = (0.8 * avg_graph_relevance + 0.2 * min(diversity / 10, 1)) * 0.7,
and 0 when the graph result set is empty.  Spec-side definition. -/
def specGraphComponent (graph_results : List GraphRecord) : ℚ :=
  if graph_results.isEmpty then 0
  else
    ((8/10) * (((graph_results.map (·.relevance_score)).sum) / (graph_results.length : ℚ))
      + (2/10) * min ((((graph_results.map (·.relationship_types)).flatten).dedup.length : ℚ) / 10) 1)
      * (7/10)

/-- The combination formula exactly as claim C1 states it:
fusion = 0.3 * vector_component + 0.7 * graph_component, with the components
already carrying their 0.3 / 0.7 factors.  Spec-side definition. -/
def claimedFusion (vector_results : List ProcessedHit) (graph_results : List GraphRecord) : ℚ :=
  (3/10) * specVectorComponent vector_results + (7/10) * specGraphComponent graph_results

/-! ## SearchTools.vector_search / graph_search / hybrid_search (tools.py)

Queries are word lists (the view that query.split() produces).  Remote
services and the Redis caches for one fixed query are oracle fields of a
SearchEnv; the entity extractor and the Neo4j traversal are separate oracle
arguments of hybrid_search so that (in)dependence on them can be stated. -/

/-- One raw Milvus hit as consumed by SearchTools.vector_search: the entity id,
the raw distance and the stored text. -/
structure RawHit where
  id : String
  distance : ℚ
  text : List String
deriving Repr, DecidableEq

/-- The environment of one SearchTools query: availability flags, the Redis
caches for this query's hash (Python treats a cached empty list as a miss) and
the two Milvus-side remote calls.  milvusSearch qv k models
milvus_manager.search(collection, [qv], top_k=k), which passes k through as
the engine limit (milvus_vector.py line 215). -/
structure SearchEnv where
  milvusAvailable : Bool
  neo4jAvailable : Bool
  vecCache : Option (List ProcessedHit)
  hybridCache : Option (List ProcessedHit × List GraphRecord × ℚ)
  embedText : Option (List ℚ)
  milvusSearch : List ℚ → ℕ → List RawHit

/-- SearchTools._check_query_keywords_in_text: the lowercased word sets of
query and text intersect. -/
def checkQueryKeywordsInText (query text : List String) : Bool :=
  !(((query.map strLower).inter (text.map strLower)).isEmpty)

/-- Build one processed result dict from a raw hit (vector_search body):
similarity = 1/(1+distance) when distance > 0 else 1.0, plus the
has_keywords indicator. -/
def processHit (query : List String) (h : RawHit) : ProcessedHit :=
  { id := h.id
    distance := h.distance
    similarity_score := if 0 < h.distance then 1 / (1 + h.distance) else 1
    text := h.text
    has_keywords := checkQueryKeywordsInText query h.text }

/-- Stable descending insertion sort on a rational key, modelling Python's
list.sort(key=..., reverse=True). -/
def insertDescBy (key : α → ℚ) (x : α) : List α → List α
  | [] => [x]
  | y :: ys => if key x < key y then y :: insertDescBy key x ys else x :: y :: ys

/-- Sort a list in descending key order (stable). -/
def sortDescBy (key : α → ℚ) : List α → List α
  | [] => []
  | x :: xs => insertDescBy key x (sortDescBy key xs)

/-- SearchTools.vector_search: empty when Milvus is unavailable; cached results
when the cache holds a non-empty list; empty when the query embedding fails or
is empty (Python truthiness of the embedding); otherwise process the raw hits
of a top_k search and sort them by similarity, highest first.  The final
cache_search_results write mutates only Redis and is not part of the returned
value.  The broad except that returns [] is the total function itself. -/
def vectorSearch (env : SearchEnv) (query : List String) (top_k : ℕ) : List ProcessedHit :=
  if !env.milvusAvailable then []
  else
    match env.vecCache with
    | some (h :: t) => h :: t
    | _ =>
      match env.embedText with
      | none => []
      | some [] => []
      | some qv =>
        sortDescBy (·.similarity_score) ((env.milvusSearch qv top_k).map (processHit query))

/-- SearchTools.graph_search: empty for an empty entity list or an unavailable
Neo4j manager; otherwise the processed records of the bounded-depth Cypher
query, modelled as the oracle gq. -/
def graphSearch (neo4jAvailable : Bool) (gq : List String → ℕ → List GraphRecord)
    (entities : List String) (max_depth : ℕ) : List GraphRecord :=
  if entities.isEmpty then []
  else if !neo4jAvailable then []
  else gq entities max_depth

/-- The result dict of SearchTools.hybrid_search restricted to the fields the
claims speak about, plus the extracted entity list. -/
structure HybridResult where
  vector_results : List ProcessedHit
  graph_results : List GraphRecord
  fusion_score : ℚ
  extracted_entities : List String
deriving Repr, DecidableEq

/-- Fallback traversal seeds of hybrid_search: the stripped query terms of
length > 2. -/
def queryTerms (query : List String) : List String :=
  (query.map String.trim).filter (fun t => 2 < t.length)

/-- SearchTools.hybrid_search.  On a hybrid-cache hit, return the cached
triple.  Otherwise run vector_search with top_k (the code passes top_k
unchanged, tools.py line 279); an empty vector result set short-circuits to
the empty result.  Otherwise extract entities from the top min(3, n) hits
(the Python set union is modelled as dedup of the concatenation), traverse the
graph from them at depth 2 (or from the query terms at depth 1 when extraction
yields nothing), and attach the fusion score. -/
def hybridSearch (env : SearchEnv) (extract : List String → List String)
    (gq : List String → ℕ → List GraphRecord) (query : List String) (top_k : ℕ) :
    HybridResult :=
  match env.hybridCache with
  | some c => ⟨c.1, c.2.1, c.2.2, []⟩
  | none =>
    let vector_results := vectorSearch env query top_k
    if vector_results.isEmpty then ⟨[], [], 0, []⟩
    else
      let extracted_entities :=
        (((vector_results.take (min 3 vector_results.length)).map (fun r => extract r.text)).flatten).dedup
      let graph_results :=
        if !extracted_entities.isEmpty then
          graphSearch env.neo4jAvailable gq extracted_entities 2
        else
          graphSearch env.neo4jAvailable gq (queryTerms query) 1
      ⟨vector_results, graph_results,
        calculateFusionScore vector_results graph_results, extracted_entities⟩

/-! ## OptimizedMilvusManager.hybrid_search (optimized_milvus.py lines 511-618)

This adapter-level hybrid search is the place where the 2x over-fetch lives:
it queries the collection with limit * 2 candidates, re-ranks with a keyword
score when query text is given, and returns at most limit results. -/

/-- One hit of the optimized Milvus collection search: id, engine score and
stored content (word-list view). -/
structure MilvusHit where
  id : String
  score : ℚ
  content : List String
deriving Repr, DecidableEq

/-- A processed result of OptimizedMilvusManager.hybrid_search. -/
structure ScoredResult where
  id : String
  score : ℚ
  content : List String
  keyword_score : ℚ
  combined_score : ℚ
deriving Repr, DecidableEq

/-- OptimizedMilvusManager._calculate_keyword_score: |query set ∩ content set|
divided by |query set| over lowercased word sets, 0 for an empty query. -/
def calculateKeywordScore (query content : List String) : ℚ :=
  let query_words := (query.map strLower).dedup
  let content_words := (content.map strLower).dedup
  if query_words.isEmpty then 0
  else ((query_words.inter content_words).length : ℚ) / (query_words.length : ℚ)

/-- OptimizedMilvusManager.hybrid_search, search-and-rank core.  The store
oracle models collection.search keyed by the limit actually requested; the
code requests limit * 2 (line 581), computes combined scores (0.7 * engine
score + 0.3 * keyword score when query text is present), sorts descending by
combined score in that case, and truncates to limit. -/
def milvusHybridSearch (store : ℕ → List MilvusHit) (limit : ℕ)
    (query_text : Option (List String)) : List ScoredResult :=
  let raw := store (limit * 2)
  let processed := raw.map (fun h =>
    match query_text with
    | some q =>
      let ks := calculateKeywordScore q h.content
      ({ id := h.id, score := h.score, content := h.content, keyword_score := ks
         combined_score := (7/10) * h.score + (3/10) * ks } : ScoredResult)
    | none =>
      { id := h.id, score := h.score, content := h.content, keyword_score := 0
        combined_score := h.score })
  let processed :=
    match query_text with
    | some _ => sortDescBy (fun r : ScoredResult => r.combined_score) processed
    | none => processed
  processed.take limit

/-! ## AdvancedBiblicalChunker (chunker.py)

Verse texts are modelled as their word lists (str.split view), so that the
word count of a chunk built by " ".join is the length of the concatenation.
_chunk_chapter receives the verse records already sorted by verse number (the
sort_values step); the claims quantify over every verse list, which covers
every sort output.  The running current_word_count of the Python loop always
equals the recomputed word count of the current verse list (it is seeded from
exactly that sum at each overlap and incremented by each appended verse), so
the state carries only (chunks, current verses). -/

/-- One verse record: verse number and text as a word list. -/
structure Verse where
  verse : ℕ
  words : List String
deriving Repr, DecidableEq

/-- len(verse_text.split()). -/
def verseWC (v : Verse) : ℕ := v.words.length

/-- Total word count of a verse list. -/
def versesWC (vs : List Verse) : ℕ := (vs.map verseWC).sum

/-- ChunkingConfig (chunker.py lines 93-105), restricted to the fields the
segmentation algorithm reads. -/
structure ChunkingConfig where
  target_chunk_size : ℕ := 250
  size_variance : ℕ := 50
  overlap_verses : ℕ := 1
  min_chunk_size : ℕ := 100
  max_chunk_size : ℕ := 400
deriving Repr, DecidableEq

/-- BiblicalChunk, restricted to the fields the claims touch.  content is the
word list of the joined verse texts; word_count is derived from it.  The
uuid4 id is uninterpreted and modelled as the default; no chunker claim reads it. -/
structure BiblicalChunk where
  id : String := ""
  content : List String := []
  translation : String := ""
  book : String := ""
  chapter : ℕ := 0
  start_verse : ℕ := 0
  end_verse : ℕ := 0
  chunk_index : ℕ := 0
  embedding : Option (List ℚ) := none
deriving Repr, DecidableEq

/-- word_count = len(content.split()). -/
def chunkWC (c : BiblicalChunk) : ℕ := c.content.length

/-- _create_chunk_from_verses: join the verse texts, record the verse range.
Call sites guarantee a non-empty verse list; the defaults are dead values. -/
def mkChunkFromVerses (translation book : String) (chapter : ℕ)
    (verses : List Verse) : BiblicalChunk :=
  { id := ""
    content := (verses.map (·.words)).flatten
    translation := translation
    book := book
    chapter := chapter
    start_verse := ((verses.head?).map (·.verse)).getD 0
    end_verse := ((verses.getLast?).map (·.verse)).getD 0
    chunk_index := 0
    embedding := none }

/-- Python's current_chunk_verses[-n:] for n > 0: the last n elements. -/
def lastN (n : ℕ) (l : List α) : List α := l.drop (l.length - n)

/-- One iteration of the verse loop of _chunk_chapter (lines 204-231): when
adding the verse would exceed max_chunk_size and the current chunk is
non-empty, close the current chunk and seed the next one with the last
overlap_verses verses; then append the verse. -/
def chunkStep (cfg : ChunkingConfig) (translation book : String) (chapter : ℕ)
    (st : List BiblicalChunk × List Verse) (v : Verse) :
    List BiblicalChunk × List Verse :=
  if cfg.max_chunk_size < versesWC st.2 + verseWC v ∧ !st.2.isEmpty then
    let ov := if 0 < cfg.overlap_verses then lastN cfg.overlap_verses st.2 else []
    (st.1 ++ [mkChunkFromVerses translation book chapter st.2], ov ++ [v])
  else
    (st.1, st.2 ++ [v])

/-- The merge branch of the trailing-verses handling (lines 244-255): extend
the last chunk's content with the remaining verse texts and update its
end_verse and word count. -/
def mergeIntoLast (chunks : List BiblicalChunk) (cur : List Verse) : List BiblicalChunk :=
  match chunks.getLast? with
  | none => chunks
  | some last =>
    chunks.dropLast ++
      [{ last with
          content := last.content ++ (cur.map (·.words)).flatten
          end_verse := ((cur.getLast?).map (·.verse)).getD last.end_verse }]

/-- Handling of the remaining verses after the loop (lines 234-255): emit them
as a chunk when they reach min_chunk_size or no chunk was produced yet,
otherwise merge them into the previous chunk. -/
def finalizeChunks (cfg : ChunkingConfig) (translation book : String) (chapter : ℕ)
    (st : List BiblicalChunk × List Verse) : List BiblicalChunk :=
  if st.2.isEmpty then st.1
  else if cfg.min_chunk_size ≤ versesWC st.2 ∨ st.1.isEmpty then
    st.1 ++ [mkChunkFromVerses translation book chapter st.2]
  else mergeIntoLast st.1 st.2

/-- AdvancedBiblicalChunker._chunk_chapter on the sorted verse records. -/
def chunkChapter (cfg : ChunkingConfig) (translation book : String) (chapter : ℕ)
    (verses : List Verse) : List BiblicalChunk :=
  if verses.isEmpty then []
  else
    finalizeChunks cfg translation book chapter
      (verses.foldl (chunkStep cfg translation book chapter) ([], []))

/-- _chunk_book_async: concatenate the chapter chunk lists in chapter order
(the chapters are iterated sequentially). -/
def chunkBook (cfg : ChunkingConfig) (translation book : String)
    (chapters : List (ℕ × List Verse)) : List BiblicalChunk :=
  (chapters.map (fun p => chunkChapter cfg translation book p.1 p.2)).flatten

/-- chunk_bible_data, ordinal pass (lines 157-168): after gathering the
per-book chunk lists (asyncio.gather preserves task order), flatten them and
assign chunk_index 0, 1, 2, ... in a single sequential pass. -/
def assignOrdinals (chunks : List BiblicalChunk) : List BiblicalChunk :=
  chunks.enum.map (fun p => { p.2 with chunk_index := p.1 })

/-- AdvancedBiblicalChunker.chunk_bible_data for one translation, one book
entry per (book name, chapters) pair. -/
def chunkBibleData (cfg : ChunkingConfig) (translation : String)
    (books : List (String × List (ℕ × List Verse))) : List BiblicalChunk :=
  assignOrdinals ((books.map (fun b => chunkBook cfg translation b.1 b.2)).flatten)

/-! ## OptimizedEmbedder (optimized_embedder.py)

The Redis cache is a finite map from key strings to embedding vectors (the
JSON round-trip through the stored string is the identity on vectors).  The
remote provider is an oracle giving, per processing batch and per attempt,
either the list of per-text embeddings of that batch or an exception; the
model counts remote batch attempts, so zero remote calls is attempts = 0. -/

/-- The Redis contents seen by the embedder: key to cached vector. -/
abbrev Cache := String → Option (List ℚ)

/-- redis set: point update of the map. -/
def cacheSet (c : Cache) (k : String) (v : List ℚ) : Cache :=
  fun x => if x = k then some v else c x

/-- The chunk text handed to the embedding provider and the cache key:
" ".join of the word-list content (the original str content). -/
def contentText (c : BiblicalChunk) : String :=
  String.intercalate (" ") c.content

/-- MD5 hex digest, modelled as the identity encoding: every proof uses only
that the digest is a deterministic function of its input. -/
def md5Hex (s : String) : String := s

/-- EmbeddingConfig (optimized_embedder.py lines 25-38), fields the model
reads; provider stands for config.provider.value. -/
structure EmbeddingConfig where
  provider : String := "openai"
  model : String := "text-embedding-3-small"
  batch_size : ℕ := 100
  max_concurrent_batches : ℕ := 5
  retry_attempts : ℕ := 3
  retry_delay : ℚ := 1
  enable_caching : Bool := true
deriving Repr, DecidableEq

/-- OptimizedEmbedder._generate_cache_key:
"embedding:" + md5(f"provider:model:text"). -/
def generateCacheKey (cfg : EmbeddingConfig) (text : String) : String :=
  "embedding:" ++ md5Hex (cfg.provider ++ (":") ++ cfg.model ++ (":") ++ text)

/-- EmbeddingResult (optimized_embedder.py lines 40-49), without the timing
field. -/
structure EmbeddingResult where
  chunk_id : String
  embedding : Option (List ℚ)
  success : Bool
  cache_hit : Bool := false
deriving Repr, DecidableEq

/-- The observable outcome of one run of _generate_embeddings_with_retry:
the per-text embeddings (none for failures), the number of remote batch
attempts actually made, and the backoff delays slept between attempts. -/
structure RetryTrace where
  embeddings : List (Option (List ℚ))
  attempts : ℕ
  delays : List ℚ
deriving Repr, DecidableEq

/-- The attempt loop of _generate_embeddings_with_retry (lines 341-378),
recursing on the remaining attempts with j the 0-based attempt index: a
successful attempt returns its embeddings; a failed attempt sleeps
retry_delay * 2 ^ j and retries while attempts remain, and the final failed
attempt (and the degenerate retry_attempts = 0 loop) returns [None] * n. -/
def retryGo (remote : ℕ → Except String (List (Option (List ℚ)))) (delay : ℚ)
    (n : ℕ) (j : ℕ) : ℕ → RetryTrace
  | 0 => ⟨List.replicate n none, 0, []⟩
  | rem + 1 =>
    match remote j with
    | Except.ok embs => ⟨embs, 1, []⟩
    | Except.error _ =>
      if rem = 0 then ⟨List.replicate n none, 1, []⟩
      else
        let t := retryGo remote delay n (j + 1) rem
        ⟨t.embeddings, t.attempts + 1, delay * 2 ^ j :: t.delays⟩

/-- OptimizedEmbedder._generate_embeddings_with_retry for n texts. -/
def generateEmbeddingsWithRetry (remote : ℕ → Except String (List (Option (List ℚ))))
    (cfg : EmbeddingConfig) (n : ℕ) : RetryTrace :=
  retryGo remote cfg.retry_delay n 0 cfg.retry_attempts

/-- Results, cache and remote-attempt count of one processing stage. -/
structure BatchOut where
  results : List EmbeddingResult
  cache : Cache
  remoteAttempts : ℕ

/-- The result that the chunk loop of _process_single_batch builds for the
enumerated chunk p: a success result when the p.1-th embedding of the batch
trace exists, a failure result otherwise. -/
def batchResultFor (t : RetryTrace) (p : ℕ × BiblicalChunk) : EmbeddingResult :=
  match t.embeddings[p.1]? with
  | some (some e) => { chunk_id := p.2.id, embedding := some e, success := true }
  | _ => { chunk_id := p.2.id, embedding := none, success := false }

/-- The cache write that the same loop iteration performs: store the vector
under the chunk text's key when the embedding exists and caching is on. -/
def batchCacheUpdate (cfg : EmbeddingConfig) (redisAvailable : Bool) (t : RetryTrace)
    (c : Cache) (p : ℕ × BiblicalChunk) : Cache :=
  match t.embeddings[p.1]? with
  | some (some e) =>
    if cfg.enable_caching && redisAvailable then
      cacheSet c (generateCacheKey cfg (contentText p.2)) e
    else c
  | _ => c

/-- OptimizedEmbedder._process_single_batch (lines 263-339): run the retry
loop once for the whole batch, then loop over the enumerated chunks building
per-chunk results and caching each produced vector.  The single Python loop
is split into the result map and the cache fold; the two touch disjoint
state, so the split is behaviour-preserving. -/
def processSingleBatch (remote : ℕ → Except String (List (Option (List ℚ))))
    (cfg : EmbeddingConfig) (redisAvailable : Bool) (cache : Cache)
    (batch : List BiblicalChunk) : BatchOut :=
  let t := generateEmbeddingsWithRetry remote cfg (batch.map contentText).length
  ⟨batch.enum.map (batchResultFor t),
    batch.enum.foldl (batchCacheUpdate cfg redisAvailable t) cache,
    t.attempts⟩

/-- Fuel-indexed batch splitter: one batch of at most bs elements per step.
The fuel starts at the list length, which suffices for bs > 0. -/
def batchesOfGo (bs : ℕ) : ℕ → List α → List (List α)
  | _, [] => []
  | 0, _ :: _ => []
  | fuel + 1, x :: xs => ((x :: xs).take bs) :: batchesOfGo bs fuel ((x :: xs).drop bs)

/-- The batch split chunks[i:i+batch_size] for i in range(0, len, batch_size).
batch_size = 0 (where range would raise) yields no batches. -/
def batchesOf (bs : ℕ) (l : List α) : List (List α) :=
  if bs = 0 then [] else batchesOfGo bs l.length l

/-- OptimizedEmbedder._process_chunks_concurrent (lines 222-261): split into
batches, process them (asyncio.gather returns the per-batch results in task
order regardless of completion order; the serialized cache writes commute
because distinct texts use distinct keys), and concatenate. -/
def processChunksConcurrent (remote : ℕ → ℕ → Except String (List (Option (List ℚ))))
    (cfg : EmbeddingConfig) (redisAvailable : Bool) (cache : Cache)
    (chunks : List BiblicalChunk) : BatchOut :=
  (batchesOf cfg.batch_size chunks).enum.foldl
    (fun (acc : BatchOut) p =>
      let out := processSingleBatch (remote p.1) cfg redisAvailable acc.cache p.2
      ⟨acc.results ++ out.results, out.cache, acc.remoteAttempts + out.remoteAttempts⟩)
    ⟨[], cache, 0⟩

/-- OptimizedEmbedder._check_cache_batch (lines 173-220): mget all cache keys;
hits collect (chunk id, vector) pairs in input order, misses collect the
chunks to process in input order. -/
def checkCacheBatch (cfg : EmbeddingConfig) (cache : Cache)
    (chunks : List BiblicalChunk) : List (String × List ℚ) × List BiblicalChunk :=
  chunks.foldl
    (fun (acc : List (String × List ℚ) × List BiblicalChunk) c =>
      match cache (generateCacheKey cfg (contentText c)) with
      | some e => (acc.1 ++ [(c.id, e)], acc.2)
      | none => (acc.1, acc.2 ++ [c]))
    ([], [])

/-- Lookup in the cache_results dict: Python dict insertion keeps the last
write per key, so the lookup returns the value of the last matching pair. -/
def lookupId (l : List (String × List ℚ)) (id : String) : Option (List ℚ) :=
  ((l.filter (fun p => p.1 == id)).getLast?).map (·.2)

/-- The chunk_id_to_index dict {chunk.id: i for i, chunk in enumerate(chunks)}
with .get(id, 999999): later entries overwrite earlier ones. -/
def chunkIdToIndex (chunks : List BiblicalChunk) : String → ℕ :=
  chunks.enum.foldl (fun m p => fun s => if s = p.2.id then p.1 else m s)
    (fun _ => 999999)

/-- all_results.sort(key=lambda x: chunk_id_to_index.get(x.chunk_id, 999999)),
a stable ascending sort on the dict-derived key, modelled by insertion sort
on key comparison. -/
def sortResultsByInput (chunks : List BiblicalChunk) (rs : List EmbeddingResult) :
    List EmbeddingResult :=
  List.insertionSort
    (fun a b => chunkIdToIndex chunks a.chunk_id ≤ chunkIdToIndex chunks b.chunk_id) rs

/-- The cache stage of embed_chunks_batch: the cache check runs only when
caching is enabled and Redis is up; otherwise everything is processed. -/
def cacheStage (cfg : EmbeddingConfig) (redisAvailable : Bool) (cache : Cache)
    (chunks : List BiblicalChunk) : List (String × List ℚ) × List BiblicalChunk :=
  if cfg.enable_caching && redisAvailable then checkCacheBatch cfg cache chunks
  else ([], chunks)

/-- The processing stage: the batched remote processing runs only when
uncached chunks exist (leaving the cache untouched otherwise). -/
def procStage (remote : ℕ → ℕ → Except String (List (Option (List ℚ))))
    (cfg : EmbeddingConfig) (redisAvailable : Bool) (cache : Cache)
    (toProcess : List BiblicalChunk) : BatchOut :=
  if toProcess.isEmpty then ⟨[], cache, 0⟩
  else processChunksConcurrent remote cfg redisAvailable cache toProcess

/-- The cache-hit results, built by scanning the input chunks against the
cache_results dict. -/
def cacheHitResults (cr1 : List (String × List ℚ)) (chunks : List BiblicalChunk) :
    List EmbeddingResult :=
  chunks.filterMap (fun c =>
    (lookupId cr1 c.id).map (fun e =>
      ({ chunk_id := c.id, embedding := some e, success := true, cache_hit := true } :
        EmbeddingResult)))

/-- embed_chunks_batch before the final sort (lines 88-147): concatenate the
cache-hit results with the processing results of the misses. -/
def allResultsPresort (remote : ℕ → ℕ → Except String (List (Option (List ℚ))))
    (cfg : EmbeddingConfig) (redisAvailable : Bool) (cache : Cache)
    (chunks : List BiblicalChunk) : BatchOut :=
  ⟨cacheHitResults (cacheStage cfg redisAvailable cache chunks).1 chunks
      ++ (procStage remote cfg redisAvailable cache
          (cacheStage cfg redisAvailable cache chunks).2).results,
    (procStage remote cfg redisAvailable cache
      (cacheStage cfg redisAvailable cache chunks).2).cache,
    (procStage remote cfg redisAvailable cache
      (cacheStage cfg redisAvailable cache chunks).2).remoteAttempts⟩

/-- OptimizedEmbedder.embed_chunks_batch: empty input short-circuits;
otherwise gather the cache hits and processing results and re-sort them by
original input position. -/
def embedChunksBatch (remote : ℕ → ℕ → Except String (List (Option (List ℚ))))
    (cfg : EmbeddingConfig) (redisAvailable : Bool) (cache : Cache)
    (chunks : List BiblicalChunk) : BatchOut :=
  if chunks.isEmpty then ⟨[], cache, 0⟩
  else
    ⟨sortResultsByInput chunks (allResultsPresort remote cfg redisAvailable cache chunks).results,
      (allResultsPresort remote cfg redisAvailable cache chunks).cache,
      (allResultsPresort remote cfg redisAvailable cache chunks).remoteAttempts⟩

/-- The write-back loop of embed_chunks_batch / the embedding stage of the
pipeline: chunks[i].embedding = all_results[i].embedding for each successful
result; every other chunk field, in particular chunk_index, is untouched. -/
def updateChunksEmb (chunks : List BiblicalChunk) (results : List EmbeddingResult) :
    List BiblicalChunk :=
  chunks.enum.map (fun p =>
    match results[p.1]? with
    | some r => if r.success then { p.2 with embedding := r.embedding } else p.2
    | none => p.2)

/-- Instrumented search environment for observing the limit that the fusion
engine requests from the vector index: the index oracle answers a request for
k results with exactly k distinct hits. -/
def envInstr : SearchEnv :=
  { milvusAvailable := true
    neo4jAvailable := true
    vecCache := none
    hybridCache := none
    embedText := some [1]
    milvusSearch := fun _ k => (List.range k).map (fun i => ⟨toString i, 1, ["w"]⟩) }

/-! ## Theorems -/

/-- pymin is Mathlib's min on the rationals. -/
theorem pymin_eq_min (a b : ℚ) : pymin a b = min a b := by
  unfold pymin
  split
  · exact (min_eq_right (le_of_lt (by assumption))).symm
  · exact (min_eq_left (not_lt.mp (by assumption))).symm

/-- The vector score computed inline by _calculate_fusion_score equals the
spec-side vector component. -/
theorem vector_score_eq_spec (vs : List ProcessedHit) (h : vs.isEmpty = false) :
    ((((vs.map (·.similarity_score)).sum) / (vs.length : ℚ)) * (7/10)
        + ((((vs.filter (·.has_keywords)).length : ℚ)) / (vs.length : ℚ)) * (3/10)) * (3/10)
      = specVectorComponent vs := by
  rw [specVectorComponent, h]
  simp only [Bool.false_eq_true, if_false]
  ring

/-- The graph score computed inline by _calculate_fusion_score equals the
spec-side graph component. -/
theorem graph_score_eq_spec (gs : List GraphRecord) (h : gs.isEmpty = false) :
    ((((gs.map (·.relevance_score)).sum) / (gs.length : ℚ)) * (8/10)
        + pymin ((((gs.map (·.relationship_types)).flatten).dedup.length : ℚ) / 10) 1 * (2/10)) * (7/10)
      = specGraphComponent gs := by
  rw [specGraphComponent, h, pymin_eq_min]
  simp only [Bool.false_eq_true, if_false]
  ring

/-- The code's fusion score is min(vector_component + graph_component, 1). -/
theorem calculateFusionScore_eq (vs : List ProcessedHit) (gs : List GraphRecord) :
    calculateFusionScore vs gs = min (specVectorComponent vs + specGraphComponent gs) 1 := by
  rw [calculateFusionScore, ← pymin_eq_min]
  by_cases hv : vs.isEmpty <;> by_cases hg : gs.isEmpty
  · have h1 : specVectorComponent vs = 0 := by simp [specVectorComponent, hv]
    have h2 : specGraphComponent gs = 0 := by simp [specGraphComponent, hg]
    rw [if_pos ⟨hv, hg⟩, h1, h2]
    norm_num [pymin]
  · rw [Bool.not_eq_true] at hg
    have h1 : specVectorComponent vs = 0 := by simp [specVectorComponent, hv]
    rw [if_neg (by simp [hv, hg]), if_pos hv, if_neg (by simp [hg]),
      graph_score_eq_spec gs hg, h1]
  · rw [Bool.not_eq_true] at hv
    have h2 : specGraphComponent gs = 0 := by simp [specGraphComponent, hg]
    rw [if_neg (by simp [hv, hg]), if_neg (by simp [hv]), if_pos hg,
      vector_score_eq_spec vs hv, h2]
  · rw [Bool.not_eq_true] at hv hg
    rw [if_neg (by simp [hv, hg]), if_neg (by simp [hv]), if_neg (by simp [hg]),
      vector_score_eq_spec vs hv, graph_score_eq_spec gs hg]

/-- C1 counterexample: at one vector hit (similarity 1, keywords present) and
one graph record (relevance 1, no relationship types) the code returns
min(0.3 + 0.56, 1) = 0.86 while the claimed outer re-weighting
0.3 * vector_component + 0.7 * graph_component gives 0.482. -/
theorem C1_counterexample :
    calculateFusionScore
        [{ id := "h1", distance := 1, similarity_score := 1, text := ["x"], has_keywords := true }]
        [{ relevance_score := 1, relationship_types := [] }] ≠
      claimedFusion
        [{ id := "h1", distance := 1, similarity_score := 1, text := ["x"], has_keywords := true }]
        [{ relevance_score := 1, relationship_types := [] }] := by
  norm_num [calculateFusionScore, claimedFusion, specVectorComponent, specGraphComponent, pymin]

/-- C1 (amended): the fusion score returned by hybrid search equals
min(vector_component + graph_component, 1): the 0.3 and 0.7 weights are
applied exactly once, inside the components, the sum is clamped at 1, and
each component is 0 when its result set is empty. -/
theorem C1_fusion_combination :
    (∀ (vs : List ProcessedHit) (gs : List GraphRecord),
        calculateFusionScore vs gs = min (specVectorComponent vs + specGraphComponent gs) 1)
      ∧ specVectorComponent [] = 0 ∧ specGraphComponent [] = 0 :=
  ⟨calculateFusionScore_eq, rfl, rfl⟩

/-- Nonnegative similarity scores make the spec-side vector component
nonnegative. -/
theorem specVectorComponent_nonneg (vs : List ProcessedHit)
    (hv : ∀ h ∈ vs, 0 ≤ h.similarity_score) : 0 ≤ specVectorComponent vs := by
  unfold specVectorComponent
  split
  · exact le_refl 0
  · have hs : 0 ≤ (vs.map (·.similarity_score)).sum := by
      refine List.sum_nonneg ?_
      intro x hx
      obtain ⟨h, hmem, rfl⟩ := List.mem_map.mp hx
      exact hv h hmem
    have h1 : 0 ≤ (vs.map (·.similarity_score)).sum / (vs.length : ℚ) :=
      div_nonneg hs (by positivity)
    have h2 : 0 ≤ (((vs.filter (·.has_keywords)).length : ℚ)) / (vs.length : ℚ) :=
      div_nonneg (by positivity) (by positivity)
    linarith

/-- Nonnegative relevance scores make the spec-side graph component
nonnegative. -/
theorem specGraphComponent_nonneg (gs : List GraphRecord)
    (hg : ∀ g ∈ gs, 0 ≤ g.relevance_score) : 0 ≤ specGraphComponent gs := by
  unfold specGraphComponent
  split
  · exact le_refl 0
  · have hs : 0 ≤ (gs.map (·.relevance_score)).sum := by
      refine List.sum_nonneg ?_
      intro x hx
      obtain ⟨g, hmem, rfl⟩ := List.mem_map.mp hx
      exact hg g hmem
    have h1 : 0 ≤ (gs.map (·.relevance_score)).sum / (gs.length : ℚ) :=
      div_nonneg hs (by positivity)
    have h2 : (0:ℚ) ≤ min (((((gs.map (·.relationship_types)).flatten).dedup.length : ℕ) : ℚ) / 10) 1 :=
      le_min (by positivity) zero_le_one
    linarith

/-- C2 counterexample: the fusion score is 0 for a non-empty vector result set
whose only hit has similarity 0 and no keyword match (refuting that 0 occurs
exactly when both sets are empty), and it is negative for a hit with
similarity score -1 (refuting the lower bound for arbitrary scores). -/
theorem C2_counterexample :
    calculateFusionScore
        [{ id := "a", distance := 1, similarity_score := 0, text := [], has_keywords := false }] [] = 0
    ∧ calculateFusionScore
        [{ id := "a", distance := 1, similarity_score := -1, text := [], has_keywords := false }] [] < 0 := by
  constructor <;>
    norm_num [calculateFusionScore, pymin]

/-- C2 (amended): when every similarity score and every relevance score is
nonnegative (as the ones the code derives are), the fusion score lies in
[0, 1]; it is 0 when both result sets are empty (though not only then). -/
theorem C2_fusion_bounds (vs : List ProcessedHit) (gs : List GraphRecord)
    (hv : ∀ h ∈ vs, 0 ≤ h.similarity_score) (hg : ∀ g ∈ gs, 0 ≤ g.relevance_score) :
    0 ≤ calculateFusionScore vs gs ∧ calculateFusionScore vs gs ≤ 1 ∧
      (vs = [] → gs = [] → calculateFusionScore vs gs = 0) := by
  rw [calculateFusionScore_eq vs gs]
  refine ⟨le_min (add_nonneg (specVectorComponent_nonneg vs hv) (specGraphComponent_nonneg gs hg))
      zero_le_one,
    min_le_right _ _, ?_⟩
  rintro rfl rfl
  norm_num [specVectorComponent, specGraphComponent]

/-- C2 witness: the bounds at one concrete hit and one concrete record. -/
theorem C2_witness :
    0 ≤ calculateFusionScore
        [{ id := "a", distance := 1, similarity_score := 1/2, text := ["x"], has_keywords := true }]
        [{ relevance_score := 2, relationship_types := ["r"] }]
    ∧ calculateFusionScore
        [{ id := "a", distance := 1, similarity_score := 1/2, text := ["x"], has_keywords := true }]
        [{ relevance_score := 2, relationship_types := ["r"] }] ≤ 1
    ∧ ([{ id := "a", distance := 1, similarity_score := 1/2, text := ["x"], has_keywords := true }] = ([] : List ProcessedHit) →
       [{ relevance_score := 2, relationship_types := ["r"] }] = ([] : List GraphRecord) →
       calculateFusionScore
        [{ id := "a", distance := 1, similarity_score := 1/2, text := ["x"], has_keywords := true }]
        [{ relevance_score := 2, relationship_types := ["r"] }] = 0) :=
  C2_fusion_bounds _ _
    (by
      intro h hh
      rw [List.mem_singleton] at hh
      subst hh
      norm_num)
    (by
      intro g hh
      rw [List.mem_singleton] at hh
      subst hh
      norm_num)

/-- C3 counterexample: with max_chunk_size 5 and min_chunk_size 2, a chapter
consisting of one 6-word verse yields a single chunk of word count 6 > 5,
and the whole input (6 words) is not smaller than min_chunk_size, so the
singleton exception of the claim does not apply. -/
theorem C3_counterexample :
    ((chunkChapter { overlap_verses := 1, min_chunk_size := 2, max_chunk_size := 5 }
        ("t") ("b") 1 [{ verse := 1, words := ["a","b","c","d","e","f"] }]).map chunkWC = [6])
    ∧ ¬ (6 ≤ 5)
    ∧ 2 ≤ versesWC [{ verse := 1, words := ["a","b","c","d","e","f"] }] := by
  refine ⟨?_, by decide, by decide⟩
  decide

/-- Word counts add over concatenation of verse lists. -/
theorem versesWC_append (l₁ l₂ : List Verse) :
    versesWC (l₁ ++ l₂) = versesWC l₁ + versesWC l₂ := by
  unfold versesWC
  rw [List.map_append, List.sum_append]

/-- The word count of a chunk built from verses is the total verse word
count. -/
theorem chunkWC_mkChunkFromVerses (t b : String) (ch : ℕ) (vs : List Verse) :
    chunkWC (mkChunkFromVerses t b ch vs) = versesWC vs := by
  unfold chunkWC mkChunkFromVerses versesWC verseWC
  simp [List.length_flatten, Function.comp_def]

/-- lastN keeps at most n elements. -/
theorem lastN_length_le (n : ℕ) (l : List α) : (lastN n l).length ≤ n := by
  unfold lastN
  rw [List.length_drop]
  omega

/-- lastN keeps only elements of the list. -/
theorem lastN_subset (n : ℕ) (l : List α) : ∀ x ∈ lastN n l, x ∈ l := by
  intro x hx
  exact List.drop_subset _ l hx

/-- Summed bound: K * total word count is at most length * M when each verse
satisfies K * word count ≤ M. -/
theorem mul_versesWC_le (M K : ℕ) :
    ∀ (l : List Verse), (∀ v ∈ l, K * verseWC v ≤ M) →
      K * versesWC l ≤ l.length * M := by
  intro l
  induction l with
  | nil =>
    intro _
    simp [versesWC]
  | cons v t ih =>
    intro hb
    have hv := hb v (List.mem_cons_self v t)
    have ht := ih (fun w hw => hb w (List.mem_cons_of_mem v hw))
    have hwc : versesWC (v :: t) = verseWC v + versesWC t := by
      unfold versesWC
      simp
    rw [hwc, List.length_cons, Nat.mul_add, Nat.succ_mul]
    omega

/-- A list of at most k+1 verses, each of word count at most M/(k+1), has
total word count at most M. -/
theorem versesWC_le_of_bound (M k : ℕ) (l : List Verse)
    (hb : ∀ v ∈ l, (k + 1) * verseWC v ≤ M) (hl : l.length ≤ k + 1) :
    versesWC l ≤ M := by
  have h1 := mul_versesWC_le M (k + 1) l hb
  have h2 : (k + 1) * versesWC l ≤ (k + 1) * M :=
    le_trans h1 (Nat.mul_le_mul_right M hl)
  exact Nat.le_of_mul_le_mul_left h2 (Nat.succ_pos k)

/-- One chunkStep preserves the size invariant: all closed chunks fit in
max_chunk_size, the current verses come from the input, and the current word
count fits in max_chunk_size, provided every overlap_verses + 1 verses of the
input fit together in max_chunk_size. -/
theorem chunkStep_inv (cfg : ChunkingConfig) (t b : String) (ch : ℕ)
    (verses : List Verse)
    (Hb : ∀ v ∈ verses, (cfg.overlap_verses + 1) * verseWC v ≤ cfg.max_chunk_size)
    (st : List BiblicalChunk × List Verse)
    (h1 : ∀ c ∈ st.1, chunkWC c ≤ cfg.max_chunk_size)
    (h2 : ∀ v ∈ st.2, v ∈ verses)
    (h3 : versesWC st.2 ≤ cfg.max_chunk_size)
    (v : Verse) (hv : v ∈ verses) :
    (∀ c ∈ (chunkStep cfg t b ch st v).1, chunkWC c ≤ cfg.max_chunk_size)
    ∧ (∀ w ∈ (chunkStep cfg t b ch st v).2, w ∈ verses)
    ∧ versesWC (chunkStep cfg t b ch st v).2 ≤ cfg.max_chunk_size := by
  unfold chunkStep
  split
  · rename_i hcond
    refine ⟨?_, ?_, ?_⟩
    · intro c hc
      rcases List.mem_append.mp hc with h | h
      · exact h1 c h
      · rw [List.mem_singleton] at h
        subst h
        rw [chunkWC_mkChunkFromVerses]
        exact h3
    · intro w hw
      rcases List.mem_append.mp hw with h | h
      · by_cases hk : 0 < cfg.overlap_verses
        · rw [if_pos hk] at h
          exact h2 w (lastN_subset _ _ w h)
        · rw [if_neg hk] at h
          simp at h
      · rw [List.mem_singleton] at h
        rw [h]
        exact hv
    · refine versesWC_le_of_bound cfg.max_chunk_size cfg.overlap_verses _ ?_ ?_
      · intro w hw
        rcases List.mem_append.mp hw with h | h
        · by_cases hk : 0 < cfg.overlap_verses
          · rw [if_pos hk] at h
            exact Hb w (h2 w (lastN_subset _ _ w h))
          · rw [if_neg hk] at h
            simp at h
        · rw [List.mem_singleton] at h
          rw [h]
          exact Hb v hv
      · rw [List.length_append, List.length_singleton]
        by_cases hk : 0 < cfg.overlap_verses
        · rw [if_pos hk]
          have := lastN_length_le cfg.overlap_verses st.2
          omega
        · rw [if_neg hk]
          simp
  · rename_i hcond
    refine ⟨h1, ?_, ?_⟩
    · intro w hw
      rcases List.mem_append.mp hw with h | h
      · exact h2 w h
      · rw [List.mem_singleton] at h
        rw [h]
        exact hv
    · rw [versesWC_append]
      rw [not_and_or] at hcond
      rcases hcond with h | h
      · push_neg at h
        have : versesWC [v] = verseWC v := by
          unfold versesWC
          simp
        omega
      · have hemp : st.2 = [] := by
          simpa using h
        have hwv : verseWC v ≤ cfg.max_chunk_size := by
          have := Hb v hv
          have hle : verseWC v ≤ (cfg.overlap_verses + 1) * verseWC v :=
            Nat.le_mul_of_pos_left _ (Nat.succ_pos _)
          omega
        rw [hemp]
        have : versesWC ([] : List Verse) = 0 := rfl
        have hv1 : versesWC [v] = verseWC v := by
          unfold versesWC
          simp
        omega

/-- The verse fold preserves the size invariant. -/
theorem foldl_chunkStep_inv (cfg : ChunkingConfig) (t b : String) (ch : ℕ)
    (verses : List Verse)
    (Hb : ∀ v ∈ verses, (cfg.overlap_verses + 1) * verseWC v ≤ cfg.max_chunk_size) :
    ∀ (l : List Verse), (∀ v ∈ l, v ∈ verses) →
      ∀ (st : List BiblicalChunk × List Verse),
        (∀ c ∈ st.1, chunkWC c ≤ cfg.max_chunk_size) →
        (∀ v ∈ st.2, v ∈ verses) →
        versesWC st.2 ≤ cfg.max_chunk_size →
        (∀ c ∈ (l.foldl (chunkStep cfg t b ch) st).1, chunkWC c ≤ cfg.max_chunk_size)
        ∧ (∀ v ∈ (l.foldl (chunkStep cfg t b ch) st).2, v ∈ verses)
        ∧ versesWC (l.foldl (chunkStep cfg t b ch) st).2 ≤ cfg.max_chunk_size := by
  intro l
  induction l with
  | nil =>
    intro _ st h1 h2 h3
    exact ⟨h1, h2, h3⟩
  | cons v tl ih =>
    intro hl st h1 h2 h3
    have hv : v ∈ verses := hl v (List.mem_cons_self v tl)
    obtain ⟨g1, g2, g3⟩ := chunkStep_inv cfg t b ch verses Hb st h1 h2 h3 v hv
    exact ih (fun w hw => hl w (List.mem_cons_of_mem v hw)) _ g1 g2 g3

/-- C3 (amended): provided every overlap_verses + 1 consecutive verses fit
together in max_chunk_size (the proof uses the stronger per-verse form
(overlap_verses + 1) * word count ≤ max_chunk_size), every chunk emitted by
_chunk_chapter except the final one has word count ≤ max_chunk_size, and the
final chunk exceeds it by at most min_chunk_size - 1 words (it may absorb a
trailing remainder shorter than min_chunk_size). -/
theorem C3_chunk_size_invariant (cfg : ChunkingConfig) (t b : String) (ch : ℕ)
    (verses : List Verse)
    (Hb : ∀ v ∈ verses, (cfg.overlap_verses + 1) * verseWC v ≤ cfg.max_chunk_size) :
    (∀ c ∈ (chunkChapter cfg t b ch verses).dropLast, chunkWC c ≤ cfg.max_chunk_size)
    ∧ ∀ c ∈ chunkChapter cfg t b ch verses,
        chunkWC c ≤ cfg.max_chunk_size + (cfg.min_chunk_size - 1) := by
  unfold chunkChapter
  by_cases hemp : verses.isEmpty
  · simp [hemp]
  · rw [if_neg (by simp [hemp])]
    obtain ⟨g1, g2, g3⟩ :=
      foldl_chunkStep_inv cfg t b ch verses Hb verses (fun v hv => hv) ([], [])
        (by simp) (by simp) (by simp [versesWC])
    set st := verses.foldl (chunkStep cfg t b ch) ([], []) with hst
    unfold finalizeChunks
    by_cases hcur : st.2.isEmpty
    · rw [if_pos hcur]
      constructor
      · intro c hc
        exact g1 c (List.dropLast_subset _ hc)
      · intro c hc
        exact le_trans (g1 c hc) (Nat.le_add_right _ _)
    · rw [if_neg (by simp [hcur])]
      by_cases hbig : cfg.min_chunk_size ≤ versesWC st.2 ∨ st.1.isEmpty
      · rw [if_pos hbig]
        constructor
        · intro c hc
          rw [List.dropLast_concat] at hc
          exact g1 c hc
        · intro c hc
          rcases List.mem_append.mp hc with h | h
          · exact le_trans (g1 c h) (Nat.le_add_right _ _)
          · rw [List.mem_singleton] at h
            subst h
            rw [chunkWC_mkChunkFromVerses]
            exact le_trans g3 (Nat.le_add_right _ _)
      · rw [if_neg hbig]
        rw [not_or] at hbig
        obtain ⟨hsmall, hne⟩ := hbig
        push_neg at hsmall
        unfold mergeIntoLast
        have hne2 : st.1 ≠ [] := by
          simpa using hne
        obtain ⟨last, hlast⟩ : ∃ last, st.1.getLast? = some last :=
          ⟨st.1.getLast hne2, List.getLast?_eq_getLast st.1 hne2⟩
        rw [hlast]
        have hlast_mem : last ∈ st.1 := by
          have := List.getLast?_eq_some_iff.mp hlast
          obtain ⟨l0, hl0⟩ := this
          rw [hl0]
          exact List.mem_append.mpr (Or.inr (List.mem_singleton.mpr rfl))
        have hmerged : ∀ c ∈ st.1.dropLast, chunkWC c ≤ cfg.max_chunk_size :=
          fun c hc => g1 c (List.dropLast_subset _ hc)
        constructor
        · intro c hc
          rw [List.dropLast_concat] at hc
          exact hmerged c hc
        · intro c hc
          rcases List.mem_append.mp hc with h | h
          · exact le_trans (hmerged c h) (Nat.le_add_right _ _)
          · rw [List.mem_singleton] at h
            subst h
            have hwc : chunkWC
                { last with
                    content := last.content ++ (st.2.map (·.words)).flatten
                    end_verse := ((st.2.getLast?).map (·.verse)).getD last.end_verse }
                = chunkWC last + versesWC st.2 := by
              unfold chunkWC versesWC verseWC
              simp [List.length_flatten, Function.comp_def]
            rw [hwc]
            have hl := g1 last hlast_mem
            omega

/-- C3 witness: four two-or-fewer-word verses under max 5 / min 2 / overlap 1
satisfy the window hypothesis, and the conclusions hold for the produced
chunks. -/
theorem C3_witness :
    (∀ c ∈ (chunkChapter { overlap_verses := 1, min_chunk_size := 2, max_chunk_size := 5 }
        ("t") ("b") 1 [⟨1, ["a","b"]⟩, ⟨2, ["c","d"]⟩, ⟨3, ["e","f"]⟩, ⟨4, ["g"]⟩]).dropLast,
        chunkWC c ≤ 5)
    ∧ ∀ c ∈ chunkChapter { overlap_verses := 1, min_chunk_size := 2, max_chunk_size := 5 }
        ("t") ("b") 1 [⟨1, ["a","b"]⟩, ⟨2, ["c","d"]⟩, ⟨3, ["e","f"]⟩, ⟨4, ["g"]⟩],
        chunkWC c ≤ 5 + (2 - 1) :=
  C3_chunk_size_invariant
    { overlap_verses := 1, min_chunk_size := 2, max_chunk_size := 5 } ("t") ("b") 1
    [⟨1, ["a","b"]⟩, ⟨2, ["c","d"]⟩, ⟨3, ["e","f"]⟩, ⟨4, ["g"]⟩] (by decide)

/-- Descending insertion adds one element. -/
theorem length_insertDescBy (key : α → ℚ) (x : α) (l : List α) :
    (insertDescBy key x l).length = l.length + 1 := by
  induction l with
  | nil => rfl
  | cons y ys ih =>
    unfold insertDescBy
    split
    · simp [ih]
    · simp

/-- Descending sort preserves length. -/
theorem length_sortDescBy (key : α → ℚ) (l : List α) :
    (sortDescBy key l).length = l.length := by
  induction l with
  | nil => rfl
  | cons x xs ih =>
    unfold sortDescBy
    rw [length_insertDescBy, ih, List.length_cons]

/-- On a miss of both query caches, vector_search with the instrumented index
returns exactly the number of hits it requested, namely top_k. -/
theorem vectorSearch_envInstr_length (query : List String) (top_k : ℕ) :
    (vectorSearch envInstr query top_k).length = top_k := by
  unfold vectorSearch envInstr
  simp [length_sortDescBy]

/-- C7 counterexample: with an index oracle that returns as many distinct hits
as were requested, hybrid_search at top_k = 3 carries 3 vector results, not
2 * 3 = 6 — the fusion engine requested top_k, not 2 * top_k. -/
theorem C7_counterexample :
    ((hybridSearch envInstr (fun _ => []) (fun _ _ => []) ["light"] 3).vector_results).length = 3
    ∧ (3 : ℕ) ≠ 2 * 3 := by
  refine ⟨?_, by decide⟩
  have hlen : (vectorSearch envInstr ["light"] 3).length = 3 :=
    vectorSearch_envInstr_length ["light"] 3
  have hne : (vectorSearch envInstr ["light"] 3).isEmpty = false := by
    rcases h : vectorSearch envInstr ["light"] 3 with _ | ⟨a, t⟩
    · rw [h] at hlen
      simp at hlen
    · rfl
  unfold hybridSearch
  rw [show envInstr.hybridCache = none from rfl]
  simp only [hne, Bool.false_eq_true, if_false]
  exact hlen

/-- C7 (amended): the fusion engine (SearchTools.hybrid_search) consults the
vector index only at limit top_k — two environments whose index agrees on
requests of size top_k produce identical hybrid results; the 2x over-fetch
lives in OptimizedMilvusManager.hybrid_search, which consults its collection
only at limit * 2 and returns at most limit results. -/
theorem C7_overfetch_location :
    (∀ (env env' : SearchEnv) (extract : List String → List String)
        (gq : List String → ℕ → List GraphRecord) (query : List String) (top_k : ℕ),
        env'.milvusAvailable = env.milvusAvailable →
        env'.neo4jAvailable = env.neo4jAvailable →
        env'.vecCache = env.vecCache →
        env'.hybridCache = env.hybridCache →
        env'.embedText = env.embedText →
        (∀ qv, env'.milvusSearch qv top_k = env.milvusSearch qv top_k) →
        hybridSearch env' extract gq query top_k = hybridSearch env extract gq query top_k)
    ∧ (∀ (store store' : ℕ → List MilvusHit) (limit : ℕ) (qt : Option (List String)),
        store' (limit * 2) = store (limit * 2) →
        milvusHybridSearch store' limit qt = milvusHybridSearch store limit qt)
    ∧ (∀ (store : ℕ → List MilvusHit) (limit : ℕ) (qt : Option (List String)),
        (milvusHybridSearch store limit qt).length ≤ limit) := by
  refine ⟨?_, ?_, ?_⟩
  · intro env env' extract gq query top_k h1 h2 h3 h4 h5 h6
    have hv : vectorSearch env' query top_k = vectorSearch env query top_k := by
      unfold vectorSearch
      rw [h1, h3, h5]
      cases ha : env.milvusAvailable
      · rfl
      · rcases hcc : env.vecCache with _ | l
        · rcases hee : env.embedText with _ | qv
          · rfl
          · rcases qv with _ | ⟨x, xs⟩
            · rfl
            · show sortDescBy (fun r => r.similarity_score)
                  ((env'.milvusSearch (x :: xs) top_k).map (processHit query)) =
                sortDescBy (fun r => r.similarity_score)
                  ((env.milvusSearch (x :: xs) top_k).map (processHit query))
              rw [h6]
        · rcases l with _ | ⟨y, t⟩
          · rcases hee : env.embedText with _ | qv
            · rfl
            · rcases qv with _ | ⟨x, xs⟩
              · rfl
              · show sortDescBy (fun r => r.similarity_score)
                    ((env'.milvusSearch (x :: xs) top_k).map (processHit query)) =
                  sortDescBy (fun r => r.similarity_score)
                    ((env.milvusSearch (x :: xs) top_k).map (processHit query))
                rw [h6]
          · rfl
    unfold hybridSearch
    rw [h4, hv, h2]
  · intro store store' limit qt h
    unfold milvusHybridSearch
    rw [h]
  · intro store limit qt
    unfold milvusHybridSearch
    simp only
    split
    · exact List.length_take_le _ _
    · exact List.length_take_le _ _

/-- C7 witness: the amended statement instantiated at the instrumented
environment and an empty store at limit 4. -/
theorem C7_witness :
    hybridSearch envInstr (fun _ => []) (fun _ _ => []) ["light"] 3 =
        hybridSearch envInstr (fun _ => []) (fun _ _ => []) ["light"] 3
    ∧ milvusHybridSearch (fun _ => []) 4 none = milvusHybridSearch (fun _ => []) 4 none
    ∧ (milvusHybridSearch (fun _ => []) 4 none).length ≤ 4 :=
  ⟨C7_overfetch_location.1 envInstr envInstr (fun _ => []) (fun _ _ => []) ["light"] 3
      rfl rfl rfl rfl rfl (fun _ => rfl),
    C7_overfetch_location.2.1 (fun _ => []) (fun _ => []) 4 none rfl,
    C7_overfetch_location.2.2 (fun _ => []) 4 none⟩

/-- C8: with both query caches missed, a failed query embedding makes
vector_search, and with it hybrid_search, return the empty result set with
fusion score 0 (the model is a total function: no exception escapes); and a
successful embedding whose vector search returns zero hits still yields the
completed empty result with fusion score 0. -/
theorem C8_graceful_empty :
    (∀ (env : SearchEnv) (extract : List String → List String)
        (gq : List String → ℕ → List GraphRecord) (query : List String) (top_k : ℕ),
        env.hybridCache = none → env.vecCache.getD [] = [] → env.embedText = none →
        vectorSearch env query top_k = []
        ∧ hybridSearch env extract gq query top_k = ⟨[], [], 0, []⟩)
    ∧ (∀ (env : SearchEnv) (extract : List String → List String)
        (gq : List String → ℕ → List GraphRecord) (query : List String) (top_k : ℕ)
        (qv : List ℚ),
        env.hybridCache = none → env.vecCache.getD [] = [] → env.embedText = some qv →
        env.milvusSearch qv top_k = [] →
        hybridSearch env extract gq query top_k = ⟨[], [], 0, []⟩) := by
  constructor
  · intro env extract gq query top_k hc hvc he
    have hv : vectorSearch env query top_k = [] := by
      unfold vectorSearch
      cases ha : env.milvusAvailable
      · rfl
      · rcases hcc : env.vecCache with _ | l
        · rw [he]
          rfl
        · rcases l with _ | ⟨a, t⟩
          · rw [he]
            rfl
          · rw [hcc] at hvc
            simp at hvc
    refine ⟨hv, ?_⟩
    unfold hybridSearch
    rw [hc]
    simp [hv]
  · intro env extract gq query top_k qv hc hvc he hms
    have hv : vectorSearch env query top_k = [] := by
      unfold vectorSearch
      cases ha : env.milvusAvailable
      · rfl
      · rcases hcc : env.vecCache with _ | l
        · rw [he]
          rcases qv with _ | ⟨x, xs⟩
          · rfl
          · show sortDescBy (fun r => r.similarity_score)
                ((env.milvusSearch (x :: xs) top_k).map (processHit query)) = []
            rw [hms]
            rfl
        · rcases l with _ | ⟨a, t⟩
          · rw [he]
            rcases qv with _ | ⟨x, xs⟩
            · rfl
            · show sortDescBy (fun r => r.similarity_score)
                  ((env.milvusSearch (x :: xs) top_k).map (processHit query)) = []
              rw [hms]
              rfl
          · rw [hcc] at hvc
            simp at hvc
    unfold hybridSearch
    rw [hc]
    simp [hv]

/-- C8 witness: both branches at a concrete environment. -/
theorem C8_witness :
    (vectorSearch ⟨true, true, none, none, none, fun _ _ => []⟩ ["light"] 5 = []
      ∧ hybridSearch ⟨true, true, none, none, none, fun _ _ => []⟩
          (fun _ => []) (fun _ _ => []) ["light"] 5 = ⟨[], [], 0, []⟩)
    ∧ hybridSearch ⟨true, true, none, none, some [1], fun _ _ => []⟩
        (fun _ => []) (fun _ _ => []) ["light"] 5 = ⟨[], [], 0, []⟩ :=
  ⟨C8_graceful_empty.1 ⟨true, true, none, none, none, fun _ _ => []⟩
      (fun _ => []) (fun _ _ => []) ["light"] 5 rfl rfl rfl,
    C8_graceful_empty.2 ⟨true, true, none, none, some [1], fun _ _ => []⟩
      (fun _ => []) (fun _ _ => []) ["light"] 5 [1] rfl rfl rfl rfl⟩

/-- C10: on a hybrid-cache miss, whenever the vector-search step returns no
hits, hybrid_search returns the empty vector results, empty graph results and
fusion score 0, and the result is the same for every entity extractor and
every graph traversal oracle — no graph evidence can appear without a vector
hit. -/
theorem C10_no_graph_without_vector :
    ∀ (env : SearchEnv) (query : List String) (top_k : ℕ),
      env.hybridCache = none →
      vectorSearch env query top_k = [] →
      ∀ (extract : List String → List String) (gq : List String → ℕ → List GraphRecord),
        hybridSearch env extract gq query top_k = ⟨[], [], 0, []⟩ := by
  intro env query top_k hc hv extract gq
  unfold hybridSearch
  rw [hc]
  simp [hv]

/-- C10 witness: a concrete unavailable-Milvus environment, evaluated for two
different extractor/traversal oracles. -/
theorem C10_witness :
    hybridSearch ⟨false, true, none, none, some [1], fun _ _ => []⟩
        (fun _ => ["x"]) (fun _ _ => [⟨1, ["r"]⟩]) ["light"] 5 = ⟨[], [], 0, []⟩
    ∧ hybridSearch ⟨false, true, none, none, some [1], fun _ _ => []⟩
        (fun _ => []) (fun _ _ => []) ["light"] 5 = ⟨[], [], 0, []⟩ :=
  ⟨C10_no_graph_without_vector ⟨false, true, none, none, some [1], fun _ _ => []⟩
      ["light"] 5 rfl rfl (fun _ => ["x"]) (fun _ _ => [⟨1, ["r"]⟩]),
    C10_no_graph_without_vector ⟨false, true, none, none, some [1], fun _ _ => []⟩
      ["light"] 5 rfl rfl (fun _ => []) (fun _ _ => [])⟩

/-- The retry loop makes at most as many attempts as remain. -/
theorem retryGo_attempts_le (remote : ℕ → Except String (List (Option (List ℚ))))
    (delay : ℚ) (n : ℕ) :
    ∀ (rem j : ℕ), (retryGo remote delay n j rem).attempts ≤ rem := by
  intro rem
  induction rem with
  | zero =>
    intro j
    exact Nat.le_refl 0
  | succ r ih =>
    intro j
    unfold retryGo
    rcases remote j with e | embs
    · simp only
      split
      · exact Nat.succ_le_succ (Nat.zero_le r)
      · exact Nat.succ_le_succ (ih (j + 1))
    · exact Nat.succ_le_succ (Nat.zero_le r)

/-- With attempts remaining, the retry loop makes at least one attempt. -/
theorem retryGo_attempts_pos (remote : ℕ → Except String (List (Option (List ℚ))))
    (delay : ℚ) (n : ℕ) (rem j : ℕ) (h : 0 < rem) :
    0 < (retryGo remote delay n j rem).attempts := by
  rcases rem with _ | r
  · exact absurd h (Nat.lt_irrefl 0)
  · unfold retryGo
    rcases remote j with e | embs
    · simp only
      split
      · exact Nat.succ_pos 0
      · exact Nat.succ_pos _
    · exact Nat.succ_pos 0

/-- The backoff delays slept by the retry loop starting at attempt j are
delay * 2^(j+i) for i ranging over the attempts made except the last. -/
theorem retryGo_delays (remote : ℕ → Except String (List (Option (List ℚ))))
    (delay : ℚ) (n : ℕ) :
    ∀ (rem j : ℕ), (retryGo remote delay n j rem).delays =
      (List.range ((retryGo remote delay n j rem).attempts - 1)).map
        (fun i => delay * 2 ^ (j + i)) := by
  intro rem
  induction rem with
  | zero =>
    intro j
    rfl
  | succ r ih =>
    intro j
    unfold retryGo
    rcases remote j with e | embs
    · simp only
      by_cases hr : r = 0
      · rw [if_pos hr]
        rfl
      · rw [if_neg hr]
        have hpos := retryGo_attempts_pos remote delay n r (j + 1) (Nat.pos_of_ne_zero hr)
        obtain ⟨m, hm⟩ : ∃ m, (retryGo remote delay n (j + 1) r).attempts = m + 1 :=
          ⟨(retryGo remote delay n (j + 1) r).attempts - 1, by omega⟩
        simp only [ih (j + 1), hm, Nat.add_sub_cancel, List.range_succ_eq_map,
          List.map_cons, List.map_map]
        rw [Nat.add_zero]
        congr 1
        refine List.map_congr_left ?_
        intro i _
        simp only [Function.comp_apply]
        have h2 : j + 1 + i = j + (i + 1) := by omega
        rw [h2]
    · rfl

/-- When every permitted attempt fails, the retry loop returns a None per
text and uses all retry_attempts attempts. -/
theorem retryGo_all_fail (remote : ℕ → Except String (List (Option (List ℚ))))
    (delay : ℚ) (n : ℕ) :
    ∀ (rem j : ℕ), (∀ i, j ≤ i → i < j + rem → ∃ e, remote i = Except.error e) →
      (retryGo remote delay n j rem).embeddings = List.replicate n none
      ∧ (retryGo remote delay n j rem).attempts = rem := by
  intro rem
  induction rem with
  | zero =>
    intro j _
    exact ⟨rfl, rfl⟩
  | succ r ih =>
    intro j hfail
    obtain ⟨e, he⟩ := hfail j (Nat.le_refl j) (by omega)
    unfold retryGo
    rw [he]
    simp only
    by_cases hr : r = 0
    · rw [if_pos hr]
      refine ⟨rfl, ?_⟩
      show 1 = r + 1
      rw [hr]
    · rw [if_neg hr]
      have hih := ih (j + 1) (fun i h1 h2 => hfail i (by omega) (by omega))
      refine ⟨hih.1, ?_⟩
      show (retryGo remote delay n (j + 1) r).attempts + 1 = r + 1
      rw [hih.2]

/-- Every index paired by enum is below the list length. -/
theorem enum_fst_lt (l : List α) (p : ℕ × α) (hp : p ∈ l.enum) : p.1 < l.length := by
  have h := List.mem_enum_iff_getElem?.mp hp
  have := List.getElem?_eq_some.mp h
  exact this.1

/-- C6: for every batch, every provider and every configuration, the client
makes at most retry_attempts remote attempts; the delays slept between
attempts are exactly retry_delay * 2^attempt for the failed attempts before
the last one made; and a batch whose every permitted attempt fails produces,
without raising, a per-item failure result (no vector, success = false) for
every chunk of the batch. -/
theorem C6_retry_backoff :
    (∀ (remote : ℕ → Except String (List (Option (List ℚ)))) (cfg : EmbeddingConfig) (n : ℕ),
        (generateEmbeddingsWithRetry remote cfg n).attempts ≤ cfg.retry_attempts
        ∧ (generateEmbeddingsWithRetry remote cfg n).delays =
            (List.range ((generateEmbeddingsWithRetry remote cfg n).attempts - 1)).map
              (fun i => cfg.retry_delay * 2 ^ i))
    ∧ (∀ (remote : ℕ → Except String (List (Option (List ℚ)))) (cfg : EmbeddingConfig) (n : ℕ),
        (∀ j < cfg.retry_attempts, ∃ e, remote j = Except.error e) →
        (generateEmbeddingsWithRetry remote cfg n).embeddings = List.replicate n none
        ∧ (generateEmbeddingsWithRetry remote cfg n).attempts = cfg.retry_attempts)
    ∧ (∀ (remote : ℕ → Except String (List (Option (List ℚ)))) (cfg : EmbeddingConfig)
        (redisAvailable : Bool) (cache : Cache) (batch : List BiblicalChunk),
        (∀ j < cfg.retry_attempts, ∃ e, remote j = Except.error e) →
        (processSingleBatch remote cfg redisAvailable cache batch).results =
          batch.map (fun c => { chunk_id := c.id, embedding := none, success := false })) := by
  refine ⟨?_, ?_, ?_⟩
  · intro remote cfg n
    constructor
    · exact retryGo_attempts_le remote cfg.retry_delay n cfg.retry_attempts 0
    · have h := retryGo_delays remote cfg.retry_delay n cfg.retry_attempts 0
      unfold generateEmbeddingsWithRetry
      rw [h]
      refine List.map_congr_left ?_
      intro i _
      rw [Nat.zero_add]
  · intro remote cfg n hfail
    exact retryGo_all_fail remote cfg.retry_delay n cfg.retry_attempts 0
      (fun i h1 h2 => hfail i (by omega))
  · intro remote cfg redisAvailable cache batch hfail
    unfold processSingleBatch
    simp only
    have hemb := (retryGo_all_fail remote cfg.retry_delay (batch.map contentText).length
      cfg.retry_attempts 0 (fun i h1 h2 => hfail i (by omega))).1
    have hstep : ∀ p ∈ batch.enum,
        batchResultFor (generateEmbeddingsWithRetry remote cfg (batch.map contentText).length) p
          = { chunk_id := p.2.id, embedding := none, success := false } := by
      intro p hp
      unfold batchResultFor
      unfold generateEmbeddingsWithRetry at hemb ⊢
      rw [hemb]
      have hlt : p.1 < (batch.map contentText).length := by
        rw [List.length_map]
        exact enum_fst_lt batch p hp
      rw [List.getElem?_replicate, if_pos hlt]
    rw [List.map_congr_left hstep]
    have : (fun p : ℕ × BiblicalChunk =>
        ({ chunk_id := p.2.id, embedding := none, success := false } : EmbeddingResult))
        = (fun c : BiblicalChunk =>
        ({ chunk_id := c.id, embedding := none, success := false } : EmbeddingResult)) ∘ Prod.snd := rfl
    rw [this, ← List.map_map, List.enum_map_snd]

/-- C6 witness: a provider that always fails, three attempts, delay 1: the
trace shows 3 attempts, delays [1, 2], and per-item failures for a two-chunk
batch. -/
theorem C6_witness :
    ((generateEmbeddingsWithRetry (fun _ => Except.error ("fail"))
        { retry_attempts := 3, retry_delay := 1 } 2).attempts ≤ 3
      ∧ (generateEmbeddingsWithRetry (fun _ => Except.error ("fail"))
          { retry_attempts := 3, retry_delay := 1 } 2).delays =
          (List.range ((generateEmbeddingsWithRetry (fun _ => Except.error ("fail"))
            { retry_attempts := 3, retry_delay := 1 } 2).attempts - 1)).map
            (fun i => (1 : ℚ) * 2 ^ i))
    ∧ ((generateEmbeddingsWithRetry (fun _ => Except.error ("fail"))
          { retry_attempts := 3, retry_delay := 1 } 2).embeddings = List.replicate 2 none
      ∧ (generateEmbeddingsWithRetry (fun _ => Except.error ("fail"))
          { retry_attempts := 3, retry_delay := 1 } 2).attempts = 3)
    ∧ (processSingleBatch (fun _ => Except.error ("fail"))
        { retry_attempts := 3, retry_delay := 1 } true (fun _ => none)
        [{ id := "c1", content := ["alpha"] }, { id := "c2", content := ["beta"] }]).results =
        [{ chunk_id := "c1", embedding := none, success := false },
         { chunk_id := "c2", embedding := none, success := false }] :=
  ⟨C6_retry_backoff.1 (fun _ => Except.error ("fail")) { retry_attempts := 3, retry_delay := 1 } 2,
    C6_retry_backoff.2.1 (fun _ => Except.error ("fail")) { retry_attempts := 3, retry_delay := 1 } 2
      (fun _ _ => ⟨"fail", rfl⟩),
    C6_retry_backoff.2.2 (fun _ => Except.error ("fail")) { retry_attempts := 3, retry_delay := 1 }
      true (fun _ => none)
      [{ id := "c1", content := ["alpha"] }, { id := "c2", content := ["beta"] }]
      (fun _ _ => ⟨"fail", rfl⟩)⟩

/-- C9: the ordinal pass of chunk_bible_data assigns chunk_index 0..N-1, in
order with no gaps or duplicates, to the N chunks of the flattened book
lists; and the embedding write-back (for any result list, hence any batch
size and completion order) leaves every chunk_index unchanged. -/
theorem C9_ordinal_contiguity :
    (∀ (cfg : ChunkingConfig) (tr : String)
        (books : List (String × List (ℕ × List Verse))),
        (chunkBibleData cfg tr books).map (fun c => c.chunk_index) =
          List.range (chunkBibleData cfg tr books).length)
    ∧ (∀ (chunks : List BiblicalChunk) (results : List EmbeddingResult),
        (updateChunksEmb chunks results).map (fun c => c.chunk_index) =
          chunks.map (fun c => c.chunk_index)) := by
  constructor
  · intro cfg tr books
    unfold chunkBibleData assignOrdinals
    rw [List.map_map, List.length_map, List.enum_length]
    have : ((fun c : BiblicalChunk => c.chunk_index) ∘
        (fun p : ℕ × BiblicalChunk => { p.2 with chunk_index := p.1 })) =
        Prod.fst := rfl
    rw [this, List.enum_map_fst]
  · intro chunks results
    unfold updateChunksEmb
    rw [List.map_map]
    have hcongr : ∀ p ∈ chunks.enum,
        ((fun c : BiblicalChunk => c.chunk_index) ∘ (fun p : ℕ × BiblicalChunk =>
          match results[p.1]? with
          | some r => if r.success then { p.2 with embedding := r.embedding } else p.2
          | none => p.2)) p
        = ((fun c : BiblicalChunk => c.chunk_index) ∘ Prod.snd) p := by
      intro p _
      simp only [Function.comp_apply]
      rcases results[p.1]? with _ | r
      · rfl
      · by_cases hs : r.success = true
        · simp [hs]
        · simp [hs]
    rw [List.map_congr_left hcongr, ← List.map_map, List.enum_map_snd]

/-- The batch split of a positive batch size flattens back to the input. -/
theorem flatten_batchesOf (bs : ℕ) (hbs : 0 < bs) (l : List α) :
    (batchesOf bs l).flatten = l := by
  have key : ∀ (fuel : ℕ) (l : List α), l.length ≤ fuel →
      (batchesOfGo bs fuel l).flatten = l := by
    intro fuel
    induction fuel with
    | zero =>
      intro l hl
      have hnil : l = [] := List.length_eq_zero.mp (Nat.le_zero.mp hl)
      subst hnil
      rfl
    | succ n ih =>
      intro l hl
      rcases l with _ | ⟨x, xs⟩
      · rfl
      · rw [batchesOfGo, List.flatten_cons]
        have hdrop : ((x :: xs).drop bs).length ≤ n := by
          rw [List.length_drop]
          simp only [List.length_cons] at hl ⊢
          omega
        rw [ih _ hdrop, List.take_append_drop]
  unfold batchesOf
  rw [if_neg (Nat.pos_iff_ne_zero.mp hbs)]
  exact key l.length l (Nat.le_refl _)

/-- Each per-batch result carries the id of its chunk. -/
theorem batchResultFor_chunk_id (t : RetryTrace) (p : ℕ × BiblicalChunk) :
    (batchResultFor t p).chunk_id = p.2.id := by
  unfold batchResultFor
  rcases t.embeddings[p.1]? with _ | e
  · rfl
  · rcases e with _ | v
    · rfl
    · rfl

/-- The results of one processed batch carry the batch's chunk ids in
order. -/
theorem batch_results_ids (t : RetryTrace) (batch : List BiblicalChunk) :
    ((batch.enum.map (batchResultFor t)).map (fun r => r.chunk_id)) =
      batch.map (fun c => c.id) := by
  rw [List.map_map]
  have h : ∀ p ∈ batch.enum,
      ((fun r : EmbeddingResult => r.chunk_id) ∘ batchResultFor t) p
        = ((fun c : BiblicalChunk => c.id) ∘ Prod.snd) p := by
    intro p _
    simp only [Function.comp_apply]
    exact batchResultFor_chunk_id t p
  rw [List.map_congr_left h, ← List.map_map, List.enum_map_snd]

/-- The concatenated processing results carry the ids of the processed chunks
in input order: each batch contributes one result per chunk, and the batches
flatten back to the processed list. -/
theorem processChunksConcurrent_ids (remote : ℕ → ℕ → Except String (List (Option (List ℚ))))
    (cfg : EmbeddingConfig) (redisAvailable : Bool) (cache : Cache)
    (chunks : List BiblicalChunk) (hbs : 0 < cfg.batch_size) :
    ((processChunksConcurrent remote cfg redisAvailable cache chunks).results.map
        (fun r => r.chunk_id)) = chunks.map (fun c => c.id) := by
  unfold processChunksConcurrent
  have key : ∀ (l : List (ℕ × List BiblicalChunk)) (acc : BatchOut),
      ((l.foldl (fun (acc : BatchOut) p =>
          let out := processSingleBatch (remote p.1) cfg redisAvailable acc.cache p.2
          ⟨acc.results ++ out.results, out.cache, acc.remoteAttempts + out.remoteAttempts⟩)
        acc).results.map (fun r => r.chunk_id))
        = acc.results.map (fun r => r.chunk_id)
          ++ ((l.map Prod.snd).map (fun b => b.map (fun c => c.id))).flatten := by
    intro l
    induction l with
    | nil =>
      intro acc
      simp
    | cons p tl ih =>
      intro acc
      rw [List.foldl_cons, ih]
      simp only [List.map_cons, List.flatten_cons]
      rw [List.map_append]
      unfold processSingleBatch
      simp only
      rw [batch_results_ids, List.append_assoc]
  rw [key _ _]
  simp only [List.map_nil, List.nil_append]
  rw [← List.map_flatten]
  have h2 : (batchesOf cfg.batch_size chunks).enum.map Prod.snd =
      batchesOf cfg.batch_size chunks := List.enum_map_snd _
  rw [h2, flatten_batchesOf cfg.batch_size hbs]

/-- The cache check splits the chunks into hit pairs (in order) and misses
(in order). -/
theorem checkCacheBatch_spec (cfg : EmbeddingConfig) (cache : Cache)
    (chunks : List BiblicalChunk) :
    checkCacheBatch cfg cache chunks =
      (chunks.filterMap (fun c =>
          (cache (generateCacheKey cfg (contentText c))).map (fun e => (c.id, e))),
        chunks.filter (fun c =>
          (cache (generateCacheKey cfg (contentText c))).isNone)) := by
  unfold checkCacheBatch
  have key : ∀ (l : List BiblicalChunk) (a : List (String × List ℚ)) (b : List BiblicalChunk),
      l.foldl (fun (acc : List (String × List ℚ) × List BiblicalChunk) c =>
          match cache (generateCacheKey cfg (contentText c)) with
          | some e => (acc.1 ++ [(c.id, e)], acc.2)
          | none => (acc.1, acc.2 ++ [c])) (a, b) =
        (a ++ l.filterMap (fun c =>
            (cache (generateCacheKey cfg (contentText c))).map (fun e => (c.id, e))),
          b ++ l.filter (fun c =>
            (cache (generateCacheKey cfg (contentText c))).isNone)) := by
    intro l
    induction l with
    | nil =>
      intro a b
      simp
    | cons c tl ih =>
      intro a b
      rw [List.foldl_cons]
      rcases hc : cache (generateCacheKey cfg (contentText c)) with _ | e
      · simp only [List.filterMap_cons, List.filter_cons, hc, Option.map_none,
          Option.isNone_none, if_pos]
        rw [ih]
        simp
      · simp only [List.filterMap_cons, List.filter_cons, hc, Option.map_some,
          Option.isNone_some]
        rw [ih]
        simp
  rw [key chunks [] []]
  simp

/-- The cache-hit result list carries the ids of the hit chunks in input
order. -/
theorem cacheHitResults_ids (cr1 : List (String × List ℚ)) (chunks : List BiblicalChunk) :
    ((cacheHitResults cr1 chunks).map (fun r => r.chunk_id)) =
      (chunks.filter (fun c => (lookupId cr1 c.id).isSome)).map (fun c => c.id) := by
  unfold cacheHitResults
  induction chunks with
  | nil => rfl
  | cons c tl ih =>
    rw [List.filterMap_cons, List.filter_cons]
    rcases hc : lookupId cr1 c.id with _ | e
    · simpa using ih
    · simpa using ih

/-- The cache_results dict answers for an id exactly when some pair of the
list carries that id. -/
theorem lookupId_isSome_iff (l : List (String × List ℚ)) (id : String) :
    (lookupId l id).isSome = true ↔ ∃ p ∈ l, p.1 = id := by
  unfold lookupId
  rw [Option.isSome_map']
  rw [Option.isSome_iff_ne_none]
  constructor
  · intro h
    have hne : l.filter (fun p => p.1 == id) ≠ [] := by
      intro hnil
      rw [← List.getLast?_eq_none_iff] at hnil
      exact h hnil
    rcases List.exists_mem_of_ne_nil _ hne with ⟨p, hp⟩
    rw [List.mem_filter] at hp
    exact ⟨p, hp.1, by simpa using hp.2⟩
  · rintro ⟨p, hp, hpid⟩
    intro hnone
    rw [List.getLast?_eq_none_iff] at hnone
    have : p ∈ l.filter (fun p => p.1 == id) := by
      rw [List.mem_filter]
      exact ⟨hp, by simpa using hpid⟩
    rw [hnone] at this
    exact List.not_mem_nil p this

/-- Under distinct chunk ids, the cache_results dict built by the cache check
answers for a chunk of the input exactly when that chunk's key was cached. -/
theorem lookupId_checkCache (cfg : EmbeddingConfig) (cache : Cache)
    (chunks : List BiblicalChunk) (hnd : (chunks.map (fun c => c.id)).Nodup)
    (c : BiblicalChunk) (hc : c ∈ chunks) :
    (lookupId (chunks.filterMap (fun c =>
        (cache (generateCacheKey cfg (contentText c))).map (fun e => (c.id, e)))) c.id).isSome
      = (cache (generateCacheKey cfg (contentText c))).isSome := by
  rcases hcc : cache (generateCacheKey cfg (contentText c)) with _ | e
  · simp only [Option.isSome_none]
    rcases hb : (lookupId (chunks.filterMap (fun c =>
        (cache (generateCacheKey cfg (contentText c))).map (fun e => (c.id, e)))) c.id).isSome
    · rfl
    · exfalso
      obtain ⟨p, hp, hpid⟩ := (lookupId_isSome_iff _ _).mp hb
      rw [List.mem_filterMap] at hp
      obtain ⟨c2, hc2, hc2e⟩ := hp
      rcases hm2 : cache (generateCacheKey cfg (contentText c2)) with _ | e2
      · rw [hm2] at hc2e
        exact Option.noConfusion hc2e
      · rw [hm2] at hc2e
        simp only [Option.map_some', Option.some_inj] at hc2e
        have hpid2 : c2.id = c.id := by
          rw [← hc2e] at hpid
          exact hpid
        have hceq : c2 = c := List.inj_on_of_nodup_map hnd hc2 hc hpid2
        rw [hceq, hcc] at hm2
        exact Option.noConfusion hm2
  · simp only [Option.isSome_some]
    refine (lookupId_isSome_iff _ _).mpr ⟨(c.id, e), ?_, rfl⟩
    rw [List.mem_filterMap]
    refine ⟨c, hc, ?_⟩
    rw [hcc]
    rfl

/-- The concatenation of cache-hit results and processing results carries a
permutation of the input chunk ids: each chunk contributes exactly one
result. -/
theorem allResultsPresort_ids_perm (remote : ℕ → ℕ → Except String (List (Option (List ℚ))))
    (cfg : EmbeddingConfig) (redisAvailable : Bool) (cache : Cache)
    (chunks : List BiblicalChunk) (hbs : 0 < cfg.batch_size)
    (hnd : (chunks.map (fun c => c.id)).Nodup) :
    ((allResultsPresort remote cfg redisAvailable cache chunks).results.map
        (fun r => r.chunk_id)).Perm (chunks.map (fun c => c.id)) := by
  unfold allResultsPresort
  simp only [List.map_append]
  by_cases hcr : (cfg.enable_caching && redisAvailable) = true
  · have h1 : (cacheStage cfg redisAvailable cache chunks).1 =
        chunks.filterMap (fun c =>
          (cache (generateCacheKey cfg (contentText c))).map (fun e => (c.id, e))) := by
      unfold cacheStage
      rw [if_pos hcr, checkCacheBatch_spec]
    have h2 : (cacheStage cfg redisAvailable cache chunks).2 =
        chunks.filter (fun c =>
          (cache (generateCacheKey cfg (contentText c))).isNone) := by
      unfold cacheStage
      rw [if_pos hcr, checkCacheBatch_spec]
    rw [cacheHitResults_ids, h1, h2]
    rw [List.filter_congr (fun c hc => lookupId_checkCache cfg cache chunks hnd c hc)]
    have hproc : (((procStage remote cfg redisAvailable cache
          (chunks.filter (fun c =>
            (cache (generateCacheKey cfg (contentText c))).isNone))).results).map
          (fun r => r.chunk_id)) =
        (chunks.filter (fun c =>
          !((cache (generateCacheKey cfg (contentText c))).isSome))).map (fun c => c.id) := by
      have hfeq : (fun c : BiblicalChunk =>
          (cache (generateCacheKey cfg (contentText c))).isNone) = fun c =>
            !((cache (generateCacheKey cfg (contentText c))).isSome) := by
        funext c
        rcases cache (generateCacheKey cfg (contentText c)) with _ | e
        · rfl
        · rfl
      unfold procStage
      split
      · rename_i hempty
        rw [List.isEmpty_iff] at hempty
        rw [← hfeq, hempty]
        rfl
      · rw [processChunksConcurrent_ids remote cfg redisAvailable cache _ hbs, hfeq]
    rw [hproc, ← List.map_append]
    exact (List.filter_append_perm _ chunks).map (fun c => c.id)
  · have h1 : cacheStage cfg redisAvailable cache chunks = ([], chunks) := by
      unfold cacheStage
      rw [if_neg hcr]
    rw [cacheHitResults_ids, h1]
    have hnil : (chunks.filter (fun c =>
        (lookupId (([], chunks) : List (String × List ℚ) × List BiblicalChunk).1 c.id).isSome))
        = [] := by
      simp [lookupId]
    rw [hnil]
    simp only [List.map_nil, List.nil_append]
    unfold procStage
    split
    · rename_i hempty
      have : chunks = [] := by
        simpa [List.isEmpty_iff] using hempty
      rw [this]
      rfl
    · rw [processChunksConcurrent_ids remote cfg redisAvailable cache _ hbs]

/-- chunk_id_to_index after one more enumerated chunk: the new chunk's id maps
to its index (overwriting), other ids keep their previous answer. -/
theorem chunkIdToIndex_append (l : List BiblicalChunk) (x : BiblicalChunk) (s : String) :
    chunkIdToIndex (l ++ [x]) s = if s = x.id then l.length else chunkIdToIndex l s := by
  unfold chunkIdToIndex
  rw [List.enum_append, List.foldl_append]
  rfl

/-- Under distinct ids, the chunk_id_to_index dict maps the i-th chunk's id
to i. -/
theorem chunkIdToIndex_getElem (chunks : List BiblicalChunk)
    (hnd : (chunks.map (fun c => c.id)).Nodup) :
    ∀ (i : ℕ) (c0 : BiblicalChunk), chunks[i]? = some c0 →
      chunkIdToIndex chunks c0.id = i := by
  induction chunks using List.reverseRecOn with
  | nil =>
    intro i c0 h
    rw [List.getElem?_nil] at h
    exact Option.noConfusion h
  | append_singleton l x ih =>
    intro i c0 h
    rw [List.map_append, List.nodup_append] at hnd
    rw [chunkIdToIndex_append]
    have hi : i < l.length + 1 := by
      have := (List.getElem?_eq_some.mp h).1
      simpa using this
    by_cases hil : i < l.length
    · rw [List.getElem?_append_left hil] at h
      have hmeml : c0 ∈ l := List.getElem?_mem h
      have hne : c0.id ≠ x.id := by
        intro heq
        have hmem : c0.id ∈ l.map (fun c => c.id) := List.mem_map_of_mem _ hmeml
        refine hnd.2.2 hmem ?_
        rw [heq]
        simp
      rw [if_neg hne]
      exact ih hnd.1 i c0 h
    · have hi2 : i = l.length := by omega
      subst hi2
      rw [List.getElem?_concat_length] at h
      have hc0 : c0 = x := by
        exact (Option.some_inj.mp h).symm
      rw [hc0, if_pos rfl]

/-- Under distinct ids, mapping each chunk's id through the dict yields
exactly the index range. -/
theorem chunkIdToIndex_map_ids (chunks : List BiblicalChunk)
    (hnd : (chunks.map (fun c => c.id)).Nodup) :
    (chunks.map (fun c => chunkIdToIndex chunks c.id)) = List.range chunks.length := by
  refine List.ext_getElem ?_ ?_
  · simp
  · intro i h1 h2
    simp only [List.getElem_map, List.getElem_range]
    refine chunkIdToIndex_getElem chunks hnd i _ ?_
    exact List.getElem?_eq_getElem (by simpa using h1)

/-- The re-sort by original input position aligns the results with the input:
when the arriving results carry a permutation of the (distinct) chunk ids, in
any order, the sorted result list carries the chunk ids exactly in input
order. -/
theorem sortResultsByInput_aligned (chunks : List BiblicalChunk)
    (hnd : (chunks.map (fun c => c.id)).Nodup) (rs : List EmbeddingResult)
    (hperm : (rs.map (fun r => r.chunk_id)).Perm (chunks.map (fun c => c.id))) :
    (sortResultsByInput chunks rs).map (fun r => r.chunk_id) =
      chunks.map (fun c => c.id) := by
  have hsperm : (sortResultsByInput chunks rs).Perm rs :=
    List.perm_insertionSort _ rs
  have hidsperm : ((sortResultsByInput chunks rs).map (fun r => r.chunk_id)).Perm
      (chunks.map (fun c => c.id)) :=
    (hsperm.map (fun r => r.chunk_id)).trans hperm
  have hkeysorted : List.Sorted (fun a b : ℕ => a ≤ b)
      ((sortResultsByInput chunks rs).map
        (fun r => chunkIdToIndex chunks r.chunk_id)) := by
    unfold sortResultsByInput
    haveI ht : IsTotal EmbeddingResult (fun a b =>
        chunkIdToIndex chunks a.chunk_id ≤ chunkIdToIndex chunks b.chunk_id) :=
      ⟨fun a b => le_total _ _⟩
    haveI htr : IsTrans EmbeddingResult (fun a b =>
        chunkIdToIndex chunks a.chunk_id ≤ chunkIdToIndex chunks b.chunk_id) :=
      ⟨fun a b c hab hbc => le_trans hab hbc⟩
    have hs := List.sorted_insertionSort (fun a b : EmbeddingResult =>
      chunkIdToIndex chunks a.chunk_id ≤ chunkIdToIndex chunks b.chunk_id) rs
    rw [List.Sorted, List.pairwise_map]
    exact hs
  have hkeysperm : (((sortResultsByInput chunks rs).map
      (fun r => chunkIdToIndex chunks r.chunk_id))).Perm (List.range chunks.length) := by
    have hcollapse : (sortResultsByInput chunks rs).map
        (fun r => chunkIdToIndex chunks r.chunk_id) =
        ((sortResultsByInput chunks rs).map (fun r => r.chunk_id)).map
          (fun s => chunkIdToIndex chunks s) := by
      rw [List.map_map]
      rfl
    rw [hcollapse]
    have h2 := hidsperm.map (fun s => chunkIdToIndex chunks s)
    have h3 : (chunks.map (fun c => c.id)).map (fun s => chunkIdToIndex chunks s) =
        List.range chunks.length := by
      rw [List.map_map]
      exact chunkIdToIndex_map_ids chunks hnd
    rw [h3] at h2
    exact h2
  have hrangesorted : List.Sorted (fun a b : ℕ => a ≤ b) (List.range chunks.length) :=
    List.Pairwise.imp le_of_lt (List.pairwise_lt_range chunks.length)
  have hkeys : ((sortResultsByInput chunks rs).map
      (fun r => chunkIdToIndex chunks r.chunk_id)) = List.range chunks.length :=
    List.eq_of_perm_of_sorted hkeysperm hkeysorted hrangesorted
  refine List.ext_getElem ?_ ?_
  · simpa using hidsperm.length_eq
  · intro i h1 h2
    have hlen : (sortResultsByInput chunks rs).length = chunks.length := by
      simpa using hidsperm.length_eq
    have hi : i < (sortResultsByInput chunks rs).length := by
      simpa using h1
    have hkeyi : chunkIdToIndex chunks
        (((sortResultsByInput chunks rs)[i]).chunk_id) = i := by
      have := congrArg (fun l => l[i]?) hkeys
      simp only [List.getElem?_map] at this
      rw [List.getElem?_eq_getElem hi] at this
      rw [List.getElem?_range (by simpa using h2)] at this
      simpa using this
    have hmem : ((sortResultsByInput chunks rs)[i]).chunk_id ∈
        chunks.map (fun c => c.id) := by
      refine hidsperm.subset ?_
      exact List.mem_map_of_mem _ (List.getElem_mem hi)
    obtain ⟨j, hjlt, hjeq⟩ := List.getElem_of_mem hmem
    have hjlt2 : j < chunks.length := by
      simpa using hjlt
    have hjid : (chunks[j]).id = ((sortResultsByInput chunks rs)[i]).chunk_id := by
      simpa using hjeq
    have hji : i = j := by
      have hx := chunkIdToIndex_getElem chunks hnd j (chunks[j])
        (List.getElem?_eq_getElem hjlt2)
      rw [hjid, hkeyi] at hx
      exact hx
    simp only [List.getElem_map]
    subst hji
    exact hjid.symm

/-- C5 counterexample: with duplicate chunk ids [a, b, a], caching disabled
and batch size 2, the id-to-index dict maps a to its last position, so the
re-sort places b's result first: the output ids are [b, a, a] against input
ids [a, b, a] — position 0 no longer refers to chunk 0. -/
theorem C5_counterexample :
    ((embedChunksBatch
        (fun bi _ => if bi = 0 then Except.ok [some [1], some [2]] else Except.ok [some [3]])
        { batch_size := 2, enable_caching := false } true (fun _ => none)
        [{ id := "a", content := ["wa"] }, { id := "b", content := ["wb"] },
          { id := "a", content := ["wc"] }]).results.map (fun r => r.chunk_id))
      ≠ [({ id := "a", content := ["wa"] } : BiblicalChunk),
          { id := "b", content := ["wb"] },
          { id := "a", content := ["wc"] }].map (fun c => c.id) := by
  decide

/-- C5 (amended): provided the chunk ids are pairwise distinct (the Chunk
data model's stable unique id), every list of gathered results that is a
permutation of the cache-hit plus processing results — any interleaving of
cache hits and batch completions — re-sorts to carry the chunk ids exactly in
input order, and embed_chunks_batch returns its results aligned with the
input: the i-th result refers to the i-th chunk. -/
theorem C5_ordering_preservation :
    ∀ (remote : ℕ → ℕ → Except String (List (Option (List ℚ)))) (cfg : EmbeddingConfig)
      (redisAvailable : Bool) (cache : Cache) (chunks : List BiblicalChunk),
      0 < cfg.batch_size → (chunks.map (fun c => c.id)).Nodup →
      (∀ arrived : List EmbeddingResult,
        arrived.Perm (allResultsPresort remote cfg redisAvailable cache chunks).results →
        (sortResultsByInput chunks arrived).map (fun r => r.chunk_id) =
          chunks.map (fun c => c.id))
      ∧ (embedChunksBatch remote cfg redisAvailable cache chunks).results.map
          (fun r => r.chunk_id) = chunks.map (fun c => c.id) := by
  intro remote cfg redisAvailable cache chunks hbs hnd
  have hall := allResultsPresort_ids_perm remote cfg redisAvailable cache chunks hbs hnd
  constructor
  · intro arrived hA
    exact sortResultsByInput_aligned chunks hnd arrived ((hA.map (fun r => r.chunk_id)).trans hall)
  · unfold embedChunksBatch
    split
    · rename_i hempty
      have hnil : chunks = [] := by
        simpa [List.isEmpty_iff] using hempty
      rw [hnil]
      rfl
    · exact sortResultsByInput_aligned chunks hnd
        (allResultsPresort remote cfg redisAvailable cache chunks).results hall

/-- C5 witness: two distinct-id chunks, batch size 1, a successful remote. -/
theorem C5_witness :
    (∀ arrived : List EmbeddingResult,
        arrived.Perm (allResultsPresort (fun _ _ => Except.ok [some [1]])
          { batch_size := 1, enable_caching := false } true (fun _ => none)
          [{ id := "a", content := ["x"] }, { id := "b", content := ["y"] }]).results →
        (sortResultsByInput
            [{ id := "a", content := ["x"] }, { id := "b", content := ["y"] }] arrived).map
          (fun r => r.chunk_id) =
          [({ id := "a", content := ["x"] } : BiblicalChunk),
            { id := "b", content := ["y"] }].map (fun c => c.id))
    ∧ (embedChunksBatch (fun _ _ => Except.ok [some [1]])
        { batch_size := 1, enable_caching := false } true (fun _ => none)
        [{ id := "a", content := ["x"] }, { id := "b", content := ["y"] }]).results.map
          (fun r => r.chunk_id) =
        [({ id := "a", content := ["x"] } : BiblicalChunk),
          { id := "b", content := ["y"] }].map (fun c => c.id) :=
  C5_ordering_preservation (fun _ _ => Except.ok [some [1]])
    { batch_size := 1, enable_caching := false } true (fun _ => none)
    [{ id := "a", content := ["x"] }, { id := "b", content := ["y"] }]
    (by decide) (by decide)

/-- A point lookup after a point write returns the written value. -/
theorem cacheSet_self (c : Cache) (k : String) (v : List ℚ) : cacheSet c k v k = some v := by
  unfold cacheSet
  rw [if_pos rfl]

/-- A one-element list forms a single batch for any positive batch size. -/
theorem batchesOf_singleton (bs : ℕ) (hbs : 0 < bs) (x : α) : batchesOf bs [x] = [[x]] := by
  unfold batchesOf
  rw [if_neg (Nat.pos_iff_ne_zero.mp hbs)]
  rcases bs with _ | n
  · exact absurd hbs (Nat.lt_irrefl 0)
  · simp [batchesOfGo]

/-- Processing a single chunk runs one batch: its retry trace determines the
result, the cache write and the attempt count. -/
theorem processChunksConcurrent_singleton
    (remote : ℕ → ℕ → Except String (List (Option (List ℚ))))
    (cfg : EmbeddingConfig) (redisAvailable : Bool) (cache : Cache)
    (c : BiblicalChunk) (hbs : 0 < cfg.batch_size) :
    processChunksConcurrent remote cfg redisAvailable cache [c] =
      ⟨[batchResultFor (generateEmbeddingsWithRetry (remote 0) cfg 1) (0, c)],
        batchCacheUpdate cfg redisAvailable
          (generateEmbeddingsWithRetry (remote 0) cfg 1) cache (0, c),
        (generateEmbeddingsWithRetry (remote 0) cfg 1).attempts⟩ := by
  have h : processChunksConcurrent remote cfg redisAvailable cache [c] =
      ⟨[] ++ [batchResultFor (generateEmbeddingsWithRetry (remote 0) cfg 1) (0, c)],
        batchCacheUpdate cfg redisAvailable
          (generateEmbeddingsWithRetry (remote 0) cfg 1) cache (0, c),
        0 + (generateEmbeddingsWithRetry (remote 0) cfg 1).attempts⟩ := by
    unfold processChunksConcurrent
    rw [batchesOf_singleton _ hbs]
    rfl
  rw [h, Nat.zero_add, List.nil_append]

/-- First call, cache-hit path: with caching enabled and the text's key
cached, embed_chunks_batch returns the cached vector with zero remote
attempts and an unchanged cache. -/
theorem embedSingle_cache_hit (remote : ℕ → ℕ → Except String (List (Option (List ℚ))))
    (cfg : EmbeddingConfig) (cache : Cache) (c : BiblicalChunk) (e : List ℚ)
    (hcc : cfg.enable_caching = true)
    (hm : cache (generateCacheKey cfg (contentText c)) = some e) :
    embedChunksBatch remote cfg true cache [c] =
      ⟨[{ chunk_id := c.id, embedding := some e, success := true, cache_hit := true }],
        cache, 0⟩ := by
  have hstage : cacheStage cfg true cache [c] = ([(c.id, e)], []) := by
    unfold cacheStage
    rw [hcc]
    show checkCacheBatch cfg cache [c] = ([(c.id, e)], [])
    rw [checkCacheBatch_spec]
    simp [hm]
  have hhit : cacheHitResults [(c.id, e)] [c] =
      [{ chunk_id := c.id, embedding := some e, success := true, cache_hit := true }] := by
    unfold cacheHitResults
    have hl : lookupId [(c.id, e)] c.id = some e := by
      unfold lookupId
      simp
    simp [hl]
  unfold embedChunksBatch
  rw [if_neg (by simp)]
  unfold allResultsPresort
  rw [hstage, hhit]
  rfl

/-- First call, cache-miss path: with caching enabled and the text's key not
cached, embed_chunks_batch processes the single chunk through the retry loop
and the per-chunk result and cache write are those of the batch trace. -/
theorem embedSingle_cache_miss (remote : ℕ → ℕ → Except String (List (Option (List ℚ))))
    (cfg : EmbeddingConfig) (cache : Cache) (c : BiblicalChunk)
    (hcc : cfg.enable_caching = true) (hbs : 0 < cfg.batch_size)
    (hm : cache (generateCacheKey cfg (contentText c)) = none) :
    embedChunksBatch remote cfg true cache [c] =
      ⟨[batchResultFor (generateEmbeddingsWithRetry (remote 0) cfg 1) (0, c)],
        batchCacheUpdate cfg true (generateEmbeddingsWithRetry (remote 0) cfg 1) cache (0, c),
        (generateEmbeddingsWithRetry (remote 0) cfg 1).attempts⟩ := by
  have hstage : cacheStage cfg true cache [c] = ([], [c]) := by
    unfold cacheStage
    rw [hcc]
    show checkCacheBatch cfg cache [c] = ([], [c])
    rw [checkCacheBatch_spec]
    simp [hm]
  have hhit : cacheHitResults [] [c] = [] := by
    unfold cacheHitResults
    simp [lookupId]
  have hproc : procStage remote cfg true cache [c] =
      ⟨[batchResultFor (generateEmbeddingsWithRetry (remote 0) cfg 1) (0, c)],
        batchCacheUpdate cfg true (generateEmbeddingsWithRetry (remote 0) cfg 1) cache (0, c),
        (generateEmbeddingsWithRetry (remote 0) cfg 1).attempts⟩ := by
    unfold procStage
    rw [if_neg (by simp)]
    exact processChunksConcurrent_singleton remote cfg true cache c hbs
  unfold embedChunksBatch
  rw [if_neg (by simp)]
  unfold allResultsPresort
  rw [hstage]
  show (⟨sortResultsByInput [c] (cacheHitResults [] [c] ++ (procStage remote cfg true cache [c]).results),
      (procStage remote cfg true cache [c]).cache,
      (procStage remote cfg true cache [c]).remoteAttempts⟩ : BatchOut) = _
  rw [hhit, hproc, List.nil_append]
  rfl

/-- C4: with caching enabled, when the first embed call on a single chunk
succeeded, a second embed call on the same chunk against the resulting cache
makes zero remote attempts and returns a vector equal to the first call's
(for any provider behaviour on the second call); and the cache key is a
deterministic function of (provider, model, text). -/
theorem C4_cache_roundtrip :
    (∀ (remote remote2 : ℕ → ℕ → Except String (List (Option (List ℚ))))
        (cfg : EmbeddingConfig) (cache : Cache) (c : BiblicalChunk) (r : EmbeddingResult),
        cfg.enable_caching = true → 0 < cfg.batch_size →
        (embedChunksBatch remote cfg true cache [c]).results = [r] → r.success = true →
        (embedChunksBatch remote2 cfg true
            ((embedChunksBatch remote cfg true cache [c]).cache) [c]).remoteAttempts = 0
        ∧ (embedChunksBatch remote2 cfg true
            ((embedChunksBatch remote cfg true cache [c]).cache) [c]).results.map
              (fun x => x.embedding) = [r.embedding])
    ∧ (∀ (cfg1 cfg2 : EmbeddingConfig) (t1 t2 : String),
        cfg1.provider = cfg2.provider → cfg1.model = cfg2.model → t1 = t2 →
        generateCacheKey cfg1 t1 = generateCacheKey cfg2 t2) := by
  constructor
  · intro remote remote2 cfg cache c r hcc hbs hres hsucc
    rcases hm : cache (generateCacheKey cfg (contentText c)) with _ | e
    · rw [embedSingle_cache_miss remote cfg cache c hcc hbs hm] at hres ⊢
      simp only [List.cons.injEq, and_true] at hres
      rcases hemb : (generateEmbeddingsWithRetry (remote 0) cfg 1).embeddings[0]? with _ | oe
      · exfalso
        rw [← hres] at hsucc
        unfold batchResultFor at hsucc
        rw [hemb] at hsucc
        exact Bool.noConfusion hsucc
      · rcases oe with _ | e
        · exfalso
          rw [← hres] at hsucc
          unfold batchResultFor at hsucc
          rw [hemb] at hsucc
          exact Bool.noConfusion hsucc
        · have hr : r = { chunk_id := c.id, embedding := some e, success := true } := by
            rw [← hres]
            unfold batchResultFor
            rw [hemb]
          have hcache2 : batchCacheUpdate cfg true
              (generateEmbeddingsWithRetry (remote 0) cfg 1) cache (0, c)
              (generateCacheKey cfg (contentText c)) = some e := by
            unfold batchCacheUpdate
            rw [hemb]
            show (if (cfg.enable_caching && true) = true then
                cacheSet cache (generateCacheKey cfg (contentText c)) e
              else cache) (generateCacheKey cfg (contentText c)) = some e
            rw [hcc]
            exact cacheSet_self cache (generateCacheKey cfg (contentText c)) e
          rw [embedSingle_cache_hit remote2 cfg _ c e hcc hcache2]
          refine ⟨rfl, ?_⟩
          simp [hr]
    · rw [embedSingle_cache_hit remote cfg cache c e hcc hm] at hres ⊢
      simp only [List.cons.injEq, and_true] at hres
      rw [embedSingle_cache_hit remote2 cfg cache c e hcc hm]
      refine ⟨rfl, ?_⟩
      simp [← hres]
  · intro cfg1 cfg2 t1 t2 h1 h2 h3
    unfold generateCacheKey md5Hex
    rw [h1, h2, h3]

/-- C4 witness: a one-chunk first call against an empty cache with a
successful provider, then a second call with a failing provider: zero remote
attempts and the same vector. -/
theorem C4_witness :
    ((embedChunksBatch (fun _ _ => Except.error ("down"))
        { batch_size := 1, enable_caching := true } true
        ((embedChunksBatch (fun _ _ => Except.ok [some [1]])
          { batch_size := 1, enable_caching := true } true (fun _ => none)
          [{ id := "c1", content := ["hello"] }]).cache)
        [{ id := "c1", content := ["hello"] }]).remoteAttempts = 0
      ∧ (embedChunksBatch (fun _ _ => Except.error ("down"))
          { batch_size := 1, enable_caching := true } true
          ((embedChunksBatch (fun _ _ => Except.ok [some [1]])
            { batch_size := 1, enable_caching := true } true (fun _ => none)
            [{ id := "c1", content := ["hello"] }]).cache)
          [{ id := "c1", content := ["hello"] }]).results.map (fun x => x.embedding) =
        [({ chunk_id := "c1", embedding := some [1], success := true } :
          EmbeddingResult).embedding])
    ∧ generateCacheKey { } ("hello") = generateCacheKey { } ("hello") :=
  ⟨C4_cache_roundtrip.1 (fun _ _ => Except.ok [some [1]]) (fun _ _ => Except.error ("down"))
      { batch_size := 1, enable_caching := true } (fun _ => none)
      { id := "c1", content := ["hello"] }
      { chunk_id := "c1", embedding := some [1], success := true }
      rfl (by decide) (by decide) rfl,
    C4_cache_roundtrip.2 { } { } ("hello") ("hello") rfl rfl rfl⟩

end BibleStudyAI
